import Mathlib

/-!
# Verification of the rust_poker equity-calculator core

Shallow embedding of the repository's hand evaluator, hand-range model,
combined-range optimizer and equity-engine bookkeeping, together with
theorems settling the frozen claims about them.

Machine integers (`u64`, `u32`, `u16`, `u8`) are modelled as `Nat`; a
`% 2 ^ w` truncation is written exactly where the source relies on
wrap-around (the `Hand` key addition, per the spec's overflow-as-a-feature
note).  Arrays of fixed size `MAX_PLAYERS = 6` are modelled as total
functions `Nat → α`; the source only ever reads slots below the relevant
`player_count`.
-/

namespace RustPoker

/-! ## Bit-counting helper (mirrors `u64::count_ones`) -/

/-- Fuel-indexed popcount worker: counts set bits of `n`, recursing on `n / 2`.
`fuel ≥ n` is always enough, since the binary length of `n` is at most `n`. -/
def popCountAux : Nat → Nat → Nat
  | 0, _ => 0
  | fuel + 1, n => if n = 0 then 0 else n % 2 + popCountAux fuel (n / 2)

/-- Number of set bits of a natural number (the model of `count_ones`). -/
def popCount (n : Nat) : Nat := popCountAux n n

theorem popCountAux_congr : ∀ f₁ f₂ n : Nat, n ≤ f₁ → n ≤ f₂ →
    popCountAux f₁ n = popCountAux f₂ n := by
  intro f₁
  induction f₁ with
  | zero =>
    intro f₂ n h1 _
    interval_cases n
    cases f₂ <;> simp [popCountAux]
  | succ f ih =>
    intro f₂ n h1 h2
    match f₂, n with
    | g, 0 => cases g <;> simp [popCountAux]
    | 0, n + 1 => omega
    | f₂ + 1, n + 1 =>
      simp only [popCountAux, if_neg (Nat.succ_ne_zero n)]
      have := ih f₂ ((n + 1) / 2) (by omega) (by omega)
      omega

theorem popCount_zero : popCount 0 = 0 := rfl

theorem popCount_rec (n : Nat) (h : n ≠ 0) :
    popCount n = n % 2 + popCount (n / 2) := by
  unfold popCount
  obtain ⟨m, rfl⟩ : ∃ m, n = m + 1 := ⟨n - 1, by omega⟩
  simp only [popCountAux, if_neg h]
  exact congrArg _ (popCountAux_congr m ((m + 1) / 2) ((m + 1) / 2) (by omega) le_rfl)

/-- Splitting a number into its low bit and the rest. -/
theorem popCount_eq (n : Nat) : popCount n = if n = 0 then 0 else n % 2 + popCount (n / 2) := by
  by_cases h : n = 0
  · simp [h, popCount_zero]
  · simp [h, popCount_rec n h]

theorem popCount_split (n : Nat) : popCount n = n % 2 + popCount (n / 2) := by
  by_cases h : n = 0
  · subst h; rfl
  · exact popCount_rec n h

/-! ## Bitwise arithmetic toolkit -/

theorem and_eq_zero_iff (a b : Nat) :
    a &&& b = 0 ↔ ∀ i, ¬(a.testBit i = true ∧ b.testBit i = true) := by
  constructor
  · intro h i hib
    have := congrArg (Nat.testBit · i) h
    simp [Nat.testBit_and, hib.1, hib.2] at this
  · intro h
    apply Nat.eq_of_testBit_eq
    intro i
    have := h i
    simp only [Nat.testBit_and, Nat.zero_testBit]
    rcases Bool.eq_false_or_eq_true (a.testBit i) with ha | ha <;>
      rcases Bool.eq_false_or_eq_true (b.testBit i) with hb | hb <;>
        simp_all

theorem lor_and_eq_zero_iff (a b c : Nat) :
    (a ||| b) &&& c = 0 ↔ a &&& c = 0 ∧ b &&& c = 0 := by
  simp only [and_eq_zero_iff, Nat.testBit_or]
  constructor
  · intro h
    refine ⟨fun i hi => h i ⟨?_, hi.2⟩, fun i hi => h i ⟨?_, hi.2⟩⟩ <;>
      simp [hi.1]
  · rintro ⟨h1, h2⟩ i ⟨hab, hc⟩
    rcases Bool.or_eq_true_iff.mp hab with ha | hb
    · exact h1 i ⟨ha, hc⟩
    · exact h2 i ⟨hb, hc⟩

theorem lor_div_two (a b : Nat) : (a ||| b) / 2 = a / 2 ||| b / 2 := by
  apply Nat.eq_of_testBit_eq
  intro i
  have h1 := Nat.testBit_succ (a ||| b) i
  have h2 := Nat.testBit_succ a i
  have h3 := Nat.testBit_succ b i
  simp only [Nat.testBit_or] at *
  rw [← h1, ← Nat.testBit_or]
  simp [Nat.testBit_or, ← h2, ← h3]

theorem land_div_two (a b : Nat) : (a &&& b) / 2 = a / 2 &&& b / 2 := by
  apply Nat.eq_of_testBit_eq
  intro i
  have h1 := Nat.testBit_succ (a &&& b) i
  have h2 := Nat.testBit_succ a i
  have h3 := Nat.testBit_succ b i
  rw [← h1, Nat.testBit_and, Nat.testBit_and, ← h2, ← h3]

theorem lor_eq_zero_left {a b : Nat} (h : a ||| b = 0) : a = 0 := by
  apply Nat.eq_of_testBit_eq
  intro i
  have := congrArg (Nat.testBit · i) h
  simp only [Nat.testBit_or, Nat.zero_testBit] at this ⊢
  exact (Bool.or_eq_false_iff.mp this).1

theorem mod_two_lor_disjoint {a b : Nat} (h : a &&& b = 0) :
    (a ||| b) % 2 = a % 2 + b % 2 := by
  have ha := Nat.testBit_zero a
  have hb := Nat.testBit_zero b
  have hab := Nat.testBit_zero (a ||| b)
  have hor : (a ||| b).testBit 0 = (a.testBit 0 || b.testBit 0) := Nat.testBit_or a b 0
  have hand : ¬(a.testBit 0 = true ∧ b.testBit 0 = true) := (and_eq_zero_iff a b).mp h 0
  have h2a : a % 2 = 0 ∨ a % 2 = 1 := Nat.mod_two_eq_zero_or_one a
  have h2b : b % 2 = 0 ∨ b % 2 = 1 := Nat.mod_two_eq_zero_or_one b
  have h2ab : (a ||| b) % 2 = 0 ∨ (a ||| b) % 2 = 1 := Nat.mod_two_eq_zero_or_one _
  rcases h2a with h2a | h2a <;> rcases h2b with h2b | h2b <;>
    simp [h2a, h2b] at ha hb <;> simp [ha, hb] at hor <;> simp_all

theorem popCount_lor_disjoint (a : Nat) : ∀ b, a &&& b = 0 →
    popCount (a ||| b) = popCount a + popCount b := by
  induction a using Nat.strong_induction_on with
  | _ a ih =>
    intro b hab
    by_cases ha : a = 0
    · subst ha; simp [Nat.zero_or, popCount_zero]
    · have hdiv : (a / 2) &&& (b / 2) = 0 := by
        rw [← land_div_two, hab]
      have ihd := ih (a / 2) (Nat.div_lt_self (Nat.pos_of_ne_zero ha) one_lt_two) (b / 2) hdiv
      calc popCount (a ||| b)
          = (a ||| b) % 2 + popCount ((a ||| b) / 2) := popCount_split _
        _ = a % 2 + b % 2 + popCount (a / 2 ||| b / 2) := by
            rw [mod_two_lor_disjoint hab, lor_div_two]
        _ = (a % 2 + popCount (a / 2)) + (b % 2 + popCount (b / 2)) := by
            rw [ihd]; ring
        _ = popCount a + popCount b := by rw [← popCount_split, ← popCount_split]

theorem popCount_two_pow (k : Nat) : popCount (2 ^ k) = 1 := by
  induction k with
  | zero => rfl
  | succ k ih =>
    rw [popCount_split]
    have h1 : 2 ^ (k + 1) % 2 = 0 := by
      simp [Nat.pow_succ, Nat.mul_mod_left]
    have h2 : 2 ^ (k + 1) / 2 = 2 ^ k := by
      rw [Nat.pow_succ, Nat.mul_div_cancel _ (by norm_num)]
    rw [h1, h2, ih]

theorem two_pow_and_two_pow_ne {a b : Nat} (h : a ≠ b) : 2 ^ a &&& 2 ^ b = 0 := by
  rw [and_eq_zero_iff]
  intro i ⟨ha, hb⟩
  rw [Nat.testBit_two_pow] at ha hb
  simp at ha hb
  omega

theorem popCount_two_pow_lor {a m : Nat} (h : 2 ^ a &&& m = 0) :
    popCount (2 ^ a ||| m) = popCount m + 1 := by
  rw [popCount_lor_disjoint _ _ h, popCount_two_pow]; omega

/-! ## Constants (`src/constants.rs`) -/

/-- Number of cards in a standard deck. -/
def CARD_COUNT : Nat := 52

/-- Number of ranks in a standard deck. -/
def RANK_COUNT : Nat := 13

/-- Table of unique rank constants for hashing hands (`RANKS` in `constants.rs`). -/
def RANKS : Nat → Nat
  | 0 => 8192
  | 1 => 32769
  | 2 => 69632
  | 3 => 237568
  | 4 => 593920
  | 5 => 1531909
  | 6 => 3563520
  | 7 => 4300819
  | 8 => 4685870
  | 9 => 4690024
  | 10 => 4767972
  | 11 => 4780561
  | 12 => 4801683
  | _ => 0

/-- Table of power-of-two flush ranks (`FLUSH_RANKS` in `constants.rs`). -/
def FLUSH_RANKS : Nat → Nat
  | 0 => 1
  | 1 => 2
  | 2 => 4
  | 3 => 8
  | 4 => 16
  | 5 => 32
  | 6 => 64
  | 7 => 128
  | 8 => 256
  | 9 => 512
  | 10 => 1024
  | 11 => 2048
  | 12 => 4096
  | _ => 0

def HAND_CATEGORY_OFFSET : Nat := 0x1000
def HAND_CATEGORY_SHIFT : Nat := 12

/-! ## Hand (`src/hand_evaluator/hand.rs`)

The 128-bit evaluator hand is two 64-bit words `key` and `mask`, modelled
as naturals; the key addition wraps modulo `2 ^ 64` exactly as `u64`
addition does in the source. -/

def CARD_COUNT_SHIFT : Nat := 32
def SUITS_SHIFT : Nat := 48
def FLUSH_CHECK_MASK64 : Nat := 0x8888 <<< SUITS_SHIFT
def FLUSH_CHECK_MASK32 : Nat := 0x8888 <<< (SUITS_SHIFT - 32)

structure Hand where
  key : Nat
  mask : Nat
  deriving DecidableEq, Repr

/-- `impl Add for Hand`: key words add as `u64` (wrapping), mask words OR. -/
def Hand.add (a b : Hand) : Hand :=
  { key := (a.key + b.key) % 2 ^ 64, mask := a.mask ||| b.mask }

instance : Add Hand := ⟨Hand.add⟩

/-- `Hand::empty()`: suit counters preset to `0x3333` in bits 48–63. -/
def Hand.empty : Hand := { key := 0x3333 <<< SUITS_SHIFT, mask := 0 }

/-- `init_card_constants` (`hand.rs`): the per-card constant hand. -/
def CARDS (c : Nat) : Hand :=
  let rank := c / 4
  let suit := c % 4
  { key := (1 <<< (4 * suit + SUITS_SHIFT)) + (1 <<< CARD_COUNT_SHIFT) + RANKS rank
  , mask := 1 <<< ((3 - suit) * 16 + rank) }

/-- `Hand::from_hole_cards`. -/
def Hand.fromHoleCards (c1 c2 : Nat) : Hand := CARDS c1 + CARDS c2

/-- `get_rank_key`: the low 32 bits of the key (`key as u32`). -/
def Hand.getRankKey (h : Hand) : Nat := h.key &&& 0xFFFFFFFF

/-- `get_counters`: bits 32–63 of the key (`(key >> 32) as u32`). -/
def Hand.getCounters (h : Hand) : Nat := (h.key >>> 32) &&& 0xFFFFFFFF

/-- `has_flush`: test the four flush-detector bits. -/
def Hand.hasFlush (h : Hand) : Bool := h.key &&& FLUSH_CHECK_MASK64 != 0

/-- `u32::leading_zeros`. -/
def leadingZeros32 (n : Nat) : Nat := if n = 0 then 32 else 31 - Nat.log2 n

/-- `get_flush_key`: extract the 16-bit suited-rank slot of the flush suit
(`(self.mask >> shift) as u16`), or 0 when there is no flush. -/
def Hand.getFlushKey (h : Hand) : Nat :=
  if h.hasFlush then
    let flushCheckBits := h.getCounters &&& FLUSH_CHECK_MASK32
    let shift := leadingZeros32 flushCheckBits <<< 2
    (h.mask >>> shift) &&& 0xFFFF
  else 0

/-- `count`: the card counter in bits 32–35 of the key. -/
def Hand.count (h : Hand) : Nat := (h.getCounters >>> (CARD_COUNT_SHIFT - 32)) &&& 0xf

/-- `suit_count`: the suit-`s` nibble of bits 48–63, minus the initial 3
(an `i32` in the source). -/
def Hand.suitCount (h : Hand) (s : Nat) : Int :=
  ((((h.getCounters >>> (4 * s + (SUITS_SHIFT - 32))) &&& 0xf) : Nat) : Int) - 3

/-! ## Evaluator table construction (`src/hand_evaluator/evaluator.rs`)

`Evaluator::static_init` enumerates all canonical rank shapes per hand
category and writes a running `hand_value` into the flush table (keyed by
the 13-bit rank mask) or the non-flush rank table (keyed by the rank-key
sum).  We record the writes as association lists with the most recent
write first, so that a first-match lookup realizes the array's
last-write-wins semantics. -/

def MIN_CARDS : Nat := 2
def MAX_CARDS : Nat := 7

/-- State threaded through `static_init`: the two write logs and the
running `hand_value` counter. -/
structure EvalTables where
  rankWrites : List (Nat × Nat)
  flushWrites : List (Nat × Nat)
  handValue : Nat

/-- `get_key` (`evaluator.rs`): key for a 64-bit group of rank counts. -/
def getKeyOfRanks (ranks : Nat) (flush : Bool) : Nat :=
  (List.range RANK_COUNT).foldl
    (fun key r =>
      key + ((ranks >>> (r * 4)) &&& 0xf) * (if flush then FLUSH_RANKS r else RANKS r))
    0

/-- `Evaluator::get_biggest_straight`: index of the highest straight card,
or 0 when there is no straight. -/
def getBiggestStraight (ranks : Nat) : Nat :=
  let rankMask := (0x1111111111111 &&& ranks)
    ||| ((0x2222222222222 &&& ranks) >>> 1)
    ||| ((0x4444444444444 &&& ranks) >>> 2)
  match (List.range 9).reverse.find?
      (fun i => ((rankMask >>> (4 * i)) &&& 0x11111) == 0x11111) with
  | some i => i + 4
  | none => if rankMask &&& 0x1000000001111 = 0x1000000001111 then 3 else 0

/-- `Evaluator::populate`: recursively enumerate rank shapes, bumping the
hand value once per new 2–5 card shape and logging a table write for every
shape of at least `MIN_CARDS` cards.  The source's recursion adds one card
per level and stops at `MAX_CARDS = 7`, so fuel `8` at a root is enough;
the fuel only realizes that bound structurally. -/
def populate : Nat → Nat → Nat → Nat → Nat → Nat → Nat → Bool → EvalTables → EvalTables
  | 0, _, _, _, _, _, _, _, st => st
  | fuel + 1, ranks, nCards, endRank, maxPair, maxTrips, maxStraight, flush, st =>
    let st := if MIN_CARDS ≤ nCards ∧ nCards ≤ 5 then
        { st with handValue := st.handValue + 1 } else st
    let loopChildren : EvalTables → EvalTables := fun st =>
      (List.range endRank).foldl
        (fun s r =>
          let newRanks := ranks + (1 <<< (4 * r))
          let rankCount := (newRanks >>> (r * 4)) &&& 0xf
          if rankCount = 2 ∧ maxPair ≤ r then s
          else if rankCount = 3 ∧ maxTrips ≤ r then s
          else if 4 ≤ rankCount then s
          else if maxStraight < getBiggestStraight newRanks then s
          else populate fuel newRanks (nCards + 1) (r + 1) maxPair maxTrips maxStraight flush s)
        st
    if MIN_CARDS ≤ nCards ∨ (flush ∧ 5 ≤ nCards) then
      let key := getKeyOfRanks ranks flush
      let st := if flush then { st with flushWrites := (key, st.handValue) :: st.flushWrites }
        else { st with rankWrites := (key, st.handValue) :: st.rankWrites }
      if nCards = MAX_CARDS then st else loopChildren st
    else loopChildren st

/-- `static_init`, high-card pass. -/
def passHighCard (st : EvalTables) : EvalTables :=
  populate 8 0 0 RANK_COUNT 0 0 0 false { st with handValue := 1 * HAND_CATEGORY_OFFSET }

/-- `static_init`, pair pass. -/
def passPairs (st : EvalTables) : EvalTables :=
  (List.range RANK_COUNT).foldl
    (fun st r => populate 8 (2 <<< (4 * r)) 2 RANK_COUNT 0 0 0 false st)
    { st with handValue := 2 * HAND_CATEGORY_OFFSET }

/-- `static_init`, two-pair pass (`r1` outer, `r2 < r1` inner). -/
def passTwoPairs (st : EvalTables) : EvalTables :=
  ((List.range RANK_COUNT).flatMap (fun r1 => (List.range r1).map (fun r2 => (r1, r2)))).foldl
    (fun st p => populate 8 ((2 <<< (4 * p.1)) + (2 <<< (4 * p.2))) 4 RANK_COUNT p.2 0 0 false st)
    { st with handValue := 3 * HAND_CATEGORY_OFFSET }

/-- `static_init`, three-of-a-kind pass. -/
def passTrips (st : EvalTables) : EvalTables :=
  (List.range RANK_COUNT).foldl
    (fun st r => populate 8 (3 <<< (4 * r)) 3 RANK_COUNT 0 r 0 false st)
    { st with handValue := 4 * HAND_CATEGORY_OFFSET }

/-- `static_init`, straight pass (wheel first, then 6-high to A-high). -/
def passStraights (st : EvalTables) : EvalTables :=
  let st := populate 8 0x1000000001111 5 RANK_COUNT RANK_COUNT RANK_COUNT 3 false
    { st with handValue := 5 * HAND_CATEGORY_OFFSET }
  ((List.range RANK_COUNT).drop 4).foldl
    (fun st r => populate 8 (0x11111 <<< (4 * (r - 4))) 5 RANK_COUNT RANK_COUNT RANK_COUNT r false st) st

/-- `static_init`, flush pass. -/
def passFlushes (st : EvalTables) : EvalTables :=
  populate 8 0 0 RANK_COUNT 0 0 0 true { st with handValue := 6 * HAND_CATEGORY_OFFSET }

/-- `static_init`, full-house pass (`r1` trips rank, `r2 ≠ r1` pair rank). -/
def passFullHouses (st : EvalTables) : EvalTables :=
  ((List.range RANK_COUNT).flatMap (fun r1 =>
      ((List.range RANK_COUNT).filter (fun r2 => r2 ≠ r1)).map (fun r2 => (r1, r2)))).foldl
    (fun st p => populate 8 ((3 <<< (4 * p.1)) + (2 <<< (4 * p.2))) 5 RANK_COUNT p.2 p.1 RANK_COUNT false st)
    { st with handValue := 7 * HAND_CATEGORY_OFFSET }

/-- `static_init`, four-of-a-kind pass. -/
def passQuads (st : EvalTables) : EvalTables :=
  (List.range RANK_COUNT).foldl
    (fun st r => populate 8 (4 <<< (4 * r)) 4 RANK_COUNT RANK_COUNT RANK_COUNT RANK_COUNT false st)
    { st with handValue := 8 * HAND_CATEGORY_OFFSET }

/-- `static_init`, straight-flush pass. -/
def passStraightFlushes (st : EvalTables) : EvalTables :=
  let st := populate 8 0x1000000001111 5 RANK_COUNT 0 0 3 true
    { st with handValue := 9 * HAND_CATEGORY_OFFSET }
  ((List.range RANK_COUNT).drop 4).foldl
    (fun st r => populate 8 (0x11111 <<< (4 * (r - 4))) 5 RANK_COUNT 0 0 r true st) st

/-- `Evaluator::static_init`: the nine category passes in ascending
strength order. -/
def staticInit : EvalTables :=
  passStraightFlushes (passQuads (passFullHouses (passFlushes (passStraights
    (passTrips (passTwoPairs (passPairs (passHighCard ⟨[], [], 0⟩))))))))

/-- First-match association-list lookup; with most-recent writes first this
is the last-write-wins content of the lookup arrays (0 = untouched slot). -/
def lookupOrZero : List (Nat × Nat) → Nat → Nat
  | [], _ => 0
  | (k, v) :: t, key => if k = key then v else lookupOrZero t key

/-- Modelled from the spec: the shipped evaluator reads `rank_table`
through the perfect hash `rank_table[(key + perf_hash_offsets[key >> 12])
mod 2^32]`, whose offset artifact (`offset_table.dat`) is not under
`src/`; per spec §4.2 Step B the offsets are constructed so that this
probe returns exactly the value `static_init` assigned to `key`, so we
model the composite as a direct keyed lookup of the write log. -/
def rankTableAt (key : Nat) : Nat := lookupOrZero staticInit.rankWrites key

/-- The flush table, keyed directly by the 13-bit suited-rank mask. -/
def flushTableAt (key : Nat) : Nat := lookupOrZero staticInit.flushWrites key

/-- `Evaluator::evaluate`: flush-table lookup when the hand has a flush,
perfect-hash rank-table lookup otherwise. -/
def evaluate (h : Hand) : Nat :=
  if h.hasFlush then flushTableAt h.getFlushKey
  else rankTableAt h.getRankKey

/-- Modelled from the spec: `evaluate_without_flush` is imported and
called by `simulator.rs` but its definition is not under `src/`; per spec
§4.3 it "skips the flush test", i.e. it always takes the non-flush
rank-table path. -/
def evaluateWithoutFlush (h : Hand) : Nat := rankTableAt h.getRankKey

/-! ### Base-16 digit lemmas for the rank-shape counters

`static_init` stores rank multiplicities as 4-bit nibbles of the `ranks`
word; during the enumeration every nibble stays at most 4, so adding one
card to a rank never carries between nibbles.  These lemmas make that
precise and give the key-sum additivity that the table-lookup proof for
the 2s2h2d2c hand rests on. -/

/-- Nibble `j` of `n` (the count of rank `j` in a `ranks` word). -/
def nibble (n j : Nat) : Nat := (n >>> (4 * j)) &&& 0xf

theorem pow16_pos (j : Nat) : 0 < 16 ^ j := Nat.pos_pow_of_pos j (by norm_num)

theorem nibble_eq (n j : Nat) : nibble n j = n / 16 ^ j % 16 := by
  unfold nibble
  rw [Nat.shiftRight_eq_div_pow]
  rw [show (0xf : Nat) = 2 ^ 4 - 1 from rfl, Nat.and_pow_two_sub_one_eq_mod,
    Nat.pow_mul]

theorem one_shl_mul (r : Nat) : (1 <<< (4 * r)) = 16 ^ r := by
  rw [Nat.shiftLeft_eq, one_mul, Nat.pow_mul]

/-- Adding one card of rank `r` increments exactly nibble `r`, provided
nibble `r` is not saturated (no carry). -/
theorem nibble_add_pow (n r j : Nat) (h : nibble n r ≤ 14) :
    nibble (n + (1 <<< (4 * r))) j = nibble n j + (if j = r then 1 else 0) := by
  rw [one_shl_mul]
  rw [nibble_eq, nibble_eq]
  rw [nibble_eq] at h
  rcases lt_trichotomy j r with hj | hj | hj
  · rw [if_neg (by omega)]
    obtain ⟨d, rfl⟩ : ∃ d, r = j + (d + 1) := ⟨r - j - 1, by omega⟩
    have hp : (16 : Nat) ^ (j + (d + 1)) = 16 ^ j * (16 * 16 ^ d) := by ring
    rw [hp, Nat.add_mul_div_left _ _ (pow16_pos j), Nat.add_mul_mod_self_left]
    omega
  · subst hj
    rw [if_pos rfl, Nat.add_div_right _ (pow16_pos j)]
    omega
  · rw [if_neg (by omega)]
    have hm : 0 < 16 ^ (r + 1) := pow16_pos (r + 1)
    have hsplit : n % 16 ^ (r + 1) = n % 16 ^ r + 16 ^ r * (n / 16 ^ r % 16) := by
      rw [show (16 : Nat) ^ (r + 1) = 16 ^ r * 16 from by ring]
      exact Nat.mod_mul
    have hlt : n % 16 ^ r < 16 ^ r := Nat.mod_lt n (pow16_pos r)
    have hg : 16 ^ r * (n / 16 ^ r % 16) ≤ 16 ^ r * 14 := Nat.mul_le_mul_left _ h
    have hkey : n % 16 ^ (r + 1) + 16 ^ r < 16 ^ (r + 1) := by
      have h16 : (16 : Nat) ^ (r + 1) = 16 * 16 ^ r := by ring
      omega
    have hdiv : (n + 16 ^ r) / 16 ^ (r + 1) = n / 16 ^ (r + 1) := by
      conv_lhs => rw [show n + 16 ^ r = n % 16 ^ (r + 1) + 16 ^ r + 16 ^ (r + 1) * (n / 16 ^ (r + 1)) from by
        have := Nat.mod_add_div n (16 ^ (r + 1)); omega]
      rw [Nat.add_mul_div_left _ _ hm, Nat.div_eq_of_lt hkey, Nat.zero_add]
    obtain ⟨e, rfl⟩ : ∃ e, j = (r + 1) + e := ⟨j - (r + 1), by omega⟩
    have hj16 : (16 : Nat) ^ (r + 1 + e) = 16 ^ (r + 1) * 16 ^ e := by ring
    rw [hj16, ← Nat.div_div_eq_div_mul, ← Nat.div_div_eq_div_mul, hdiv]
    omega

/-! ### Fold-sum helpers for the key computation -/

def sumF (f : Nat → Nat) (l : List Nat) : Nat := l.foldl (fun k j => k + f j) 0

theorem foldl_funext {α : Type} {f g : α → Nat → α} (l : List Nat)
    (h : ∀ a : α, ∀ j ∈ l, f a j = g a j) : ∀ a : α, l.foldl f a = l.foldl g a := by
  induction l with
  | nil => intro a; rfl
  | cons x t ih =>
    intro a
    simp only [List.foldl_cons, h a x (by simp)]
    exact ih (fun a j hj => h a j (by simp [hj])) _

theorem foldl_add_eq (f : Nat → Nat) (l : List Nat) :
    ∀ a : Nat, l.foldl (fun k j => k + f j) a = a + sumF f l := by
  unfold sumF
  induction l with
  | nil => intro a; simp
  | cons x t ih =>
    intro a
    rw [List.foldl_cons, List.foldl_cons, ih (a + f x), ih (0 + f x)]
    omega

theorem sumF_cons (f : Nat → Nat) (x : Nat) (l : List Nat) :
    sumF f (x :: l) = f x + sumF f l := by
  unfold sumF
  simp only [List.foldl_cons, Nat.zero_add]
  exact foldl_add_eq f l (f x)

theorem sumF_congr {f g : Nat → Nat} {l : List Nat} (h : ∀ j ∈ l, f j = g j) :
    sumF f l = sumF g l := by
  induction l with
  | nil => rfl
  | cons x t ih =>
    rw [sumF_cons, sumF_cons, h x (by simp), ih (fun j hj => h j (by simp [hj]))]

theorem sumF_add (f g : Nat → Nat) (l : List Nat) :
    sumF (fun j => f j + g j) l = sumF f l + sumF g l := by
  induction l with
  | nil => rfl
  | cons x t ih => rw [sumF_cons, sumF_cons, sumF_cons, ih]; ring

theorem sumF_single (c : Nat → Nat) (r : Nat) :
    ∀ l : List Nat, l.Nodup → r ∈ l →
      sumF (fun j => if j = r then c j else 0) l = c r := by
  intro l
  induction l with
  | nil => intro _ h; cases h
  | cons x t ih =>
    intro hnd hmem
    rw [sumF_cons]
    rcases List.mem_cons.mp hmem with hx | hmem
    · subst hx
      rw [if_pos rfl]
      have hnotin : r ∉ t := (List.nodup_cons.mp hnd).1
      have hzz : sumF (fun j => if j = r then c j else 0) t = sumF (fun _ => 0) t :=
        sumF_congr (fun j hj => if_neg (fun hh => hnotin (by rw [← hh]; exact hj)))
      rw [hzz]
      have hz : ∀ l' : List Nat, sumF (fun _ => 0) l' = 0 := by
        intro l'
        induction l' with
        | nil => rfl
        | cons y s ihz => rw [sumF_cons, ihz]
      rw [hz]
      omega
    · have hx : x ≠ r := fun hh => (List.nodup_cons.mp hnd).1 (by rw [hh]; exact hmem)
      rw [if_neg hx, ih (List.nodup_cons.mp hnd).2 hmem, Nat.zero_add]

/-- The key of a ranks word is the nibble-weighted sum of the rank
constants. -/
theorem getKeyOfRanks_eq_sumF (n : Nat) (flush : Bool) :
    getKeyOfRanks n flush
      = sumF (fun j => nibble n j * (if flush then FLUSH_RANKS j else RANKS j))
          (List.range RANK_COUNT) := by
  unfold getKeyOfRanks sumF nibble
  exact foldl_funext (List.range RANK_COUNT)
    (fun a j _ => by rw [Nat.mul_comm j 4]) 0

theorem RANKS_pos : ∀ r < 13, 1 ≤ RANKS r := by decide

/-- Key-sum additivity: adding one card of rank `r < 13` (no nibble carry)
adds exactly `RANKS r` to the non-flush key. -/
theorem getKeyOfRanks_add (n r : Nat) (hr : r < 13) (h : nibble n r ≤ 14) :
    getKeyOfRanks (n + (1 <<< (4 * r))) false = getKeyOfRanks n false + RANKS r := by
  rw [getKeyOfRanks_eq_sumF, getKeyOfRanks_eq_sumF]
  simp only [if_neg Bool.false_ne_true]
  have hcongr : sumF (fun j => nibble (n + (1 <<< (4 * r))) j * RANKS j) (List.range RANK_COUNT)
      = sumF (fun j => nibble n j * RANKS j + (if j = r then RANKS j else 0)) (List.range RANK_COUNT) := by
    apply sumF_congr
    intro j _
    rw [nibble_add_pow n r j h]
    by_cases hj : j = r <;> simp [hj] <;> ring
  rw [hcongr, sumF_add]
  congr 1
  exact sumF_single RANKS r (List.range RANK_COUNT) (List.nodup_range _)
    (List.mem_range.mpr (by simpa [RANK_COUNT] using hr))

/-! ### Frame lemmas: table writes with keys above `k` do not change the
lookup at `k` -/

/-- All rank-count nibbles at most 4: the invariant of every `ranks` word
reached during `static_init`. -/
def NibblesOK (n : Nat) : Prop := ∀ j < 13, nibble n j ≤ 4

instance (n : Nat) : Decidable (NibblesOK n) := by
  unfold NibblesOK
  infer_instance

theorem lookupOrZero_cons_ne {key v k : Nat} (l : List (Nat × Nat)) (h : key ≠ k) :
    lookupOrZero ((key, v) :: l) k = lookupOrZero l k := by
  simp [lookupOrZero, h]

theorem foldl_rankWrites_eq (step : EvalTables → Nat → EvalTables) :
    ∀ l : List Nat, (∀ s, ∀ r ∈ l, (step s r).rankWrites = s.rankWrites) →
    ∀ s, (l.foldl step s).rankWrites = s.rankWrites := by
  intro l
  induction l with
  | nil => intro _ s; rfl
  | cons x t ih =>
    intro h s
    rw [List.foldl_cons, ih (fun s r hr => h s r (by simp [hr])), h s x (by simp)]

theorem foldl_lookup_frame (step : EvalTables → Nat → EvalTables) (k : Nat) :
    ∀ l : List Nat,
      (∀ s, ∀ r ∈ l, lookupOrZero (step s r).rankWrites k = lookupOrZero s.rankWrites k) →
    ∀ s, lookupOrZero ((l.foldl step s).rankWrites) k = lookupOrZero s.rankWrites k := by
  intro l
  induction l with
  | nil => intro _ s; rfl
  | cons x t ih =>
    intro h s
    rw [List.foldl_cons, ih (fun s r hr => h s r (by simp [hr])), h s x (by simp)]

/-- A `populate` call with `flush = true` writes only the flush table. -/
theorem populate_flush_rankWrites : ∀ fuel ranks nCards endRank mp mt ms st,
    (populate fuel ranks nCards endRank mp mt ms true st).rankWrites = st.rankWrites := by
  intro fuel
  induction fuel with
  | zero => intro _ _ _ _ _ _ st; rfl
  | succ f ih =>
    intro ranks nCards endRank mp mt ms st
    simp only [populate]
    have hloop : ∀ s : EvalTables,
        (((List.range endRank).foldl
          (fun s r =>
            let newRanks := ranks + (1 <<< (4 * r))
            let rankCount := (newRanks >>> (r * 4)) &&& 0xf
            if rankCount = 2 ∧ mp ≤ r then s
            else if rankCount = 3 ∧ mt ≤ r then s
            else if 4 ≤ rankCount then s
            else if ms < getBiggestStraight newRanks then s
            else populate f newRanks (nCards + 1) (r + 1) mp mt ms true s)
          s).rankWrites) = s.rankWrites := by
      intro s
      apply foldl_rankWrites_eq
      intro s r _
      dsimp only
      split_ifs <;> first | rfl | exact ih ..
    split_ifs <;> first | rfl | exact hloop _


/-- Main frame lemma: a non-flush `populate` call whose root key already
exceeds `k` never changes the rank-table lookup at `k`.  All keys written
inside the call are at least the root key, and adding cards only grows
the key (`getKeyOfRanks_add`, no nibble carries thanks to `NibblesOK`). -/
theorem populate_frame : ∀ fuel ranks nCards endRank mp mt ms st k,
    endRank ≤ 13 → NibblesOK ranks → k < getKeyOfRanks ranks false →
    lookupOrZero (populate fuel ranks nCards endRank mp mt ms false st).rankWrites k
      = lookupOrZero st.rankWrites k := by
  intro fuel
  induction fuel with
  | zero => intro _ _ _ _ _ _ st _ _ _ _; rfl
  | succ f ih =>
    intro ranks nCards endRank mp mt ms st k hend hnib hk
    simp only [populate, Bool.false_eq_true, false_and, or_false, if_false,
      MIN_CARDS, MAX_CARDS]
    have hloop : ∀ s : EvalTables,
        lookupOrZero (((List.range endRank).foldl
          (fun s r =>
            let newRanks := ranks + (1 <<< (4 * r))
            let rankCount := (newRanks >>> (r * 4)) &&& 0xf
            if rankCount = 2 ∧ mp ≤ r then s
            else if rankCount = 3 ∧ mt ≤ r then s
            else if 4 ≤ rankCount then s
            else if ms < getBiggestStraight newRanks then s
            else populate f newRanks (nCards + 1) (r + 1) mp mt ms false s)
          s).rankWrites) k = lookupOrZero s.rankWrites k := by
      intro s
      apply foldl_lookup_frame
      intro s r hr
      have hr13 : r < 13 := lt_of_lt_of_le (List.mem_range.mp hr) hend
      dsimp only
      split_ifs with h1 h2 h3 h4
      · rfl
      · rfl
      · rfl
      · rfl
      · -- the recursive child call
        have hcount : ((ranks + (1 <<< (4 * r))) >>> (r * 4)) &&& 0xf
            = nibble (ranks + (1 <<< (4 * r))) r := by
          rw [nibble, Nat.mul_comm r 4]
        have hnr : nibble ranks r ≤ 14 := le_trans (hnib r hr13) (by norm_num)
        have hnib' : NibblesOK (ranks + (1 <<< (4 * r))) := by
          intro j hj
          rw [nibble_add_pow ranks r j hnr]
          by_cases hjr : j = r
          · subst hjr
            rw [hcount] at h3
            rw [nibble_add_pow ranks j j hnr] at h3
            simp at h3 ⊢
            omega
          · simp [hjr]
            exact hnib j hj
        have hkey' : k < getKeyOfRanks (ranks + (1 <<< (4 * r))) false := by
          rw [getKeyOfRanks_add ranks r hr13 hnr]
          omega
        exact ih _ _ _ _ _ _ s k (by omega) hnib' hkey'
    have hne : getKeyOfRanks ranks false ≠ k := by omega
    split_ifs <;> (try rw [hloop]) <;> (try rw [lookupOrZero_cons_ne _ hne]) <;> rfl

/-- Head-write lemma: a non-flush `populate` root with `2 ≤ nCards ≤ 5`,
`nCards ≠ 7` bumps the hand value and leaves the lookup at its own key
pointing at that bumped value (children only write strictly larger keys). -/
theorem populate_lookup_head (f ranks nCards endRank mp mt ms : Nat) (st : EvalTables)
    (hend : endRank ≤ 13) (hnib : NibblesOK ranks)
    (h2 : 2 ≤ nCards) (h5 : nCards ≤ 5) (h7 : nCards ≠ 7) :
    lookupOrZero (populate (f + 1) ranks nCards endRank mp mt ms false st).rankWrites
        (getKeyOfRanks ranks false)
      = st.handValue + 1 := by
  simp only [populate, Bool.false_eq_true, false_and, or_false, if_false,
    MIN_CARDS, MAX_CARDS]
  have hloop : ∀ s : EvalTables,
      lookupOrZero (((List.range endRank).foldl
        (fun s r =>
          let newRanks := ranks + (1 <<< (4 * r))
          let rankCount := (newRanks >>> (r * 4)) &&& 0xf
          if rankCount = 2 ∧ mp ≤ r then s
          else if rankCount = 3 ∧ mt ≤ r then s
          else if 4 ≤ rankCount then s
          else if ms < getBiggestStraight newRanks then s
          else populate f newRanks (nCards + 1) (r + 1) mp mt ms false s)
        s).rankWrites) (getKeyOfRanks ranks false)
      = lookupOrZero s.rankWrites (getKeyOfRanks ranks false) := by
    intro s
    apply foldl_lookup_frame
    intro s r hr
    have hr13 : r < 13 := lt_of_lt_of_le (List.mem_range.mp hr) hend
    dsimp only
    split_ifs with hc1 hc2 hc3 hc4
    · rfl
    · rfl
    · rfl
    · rfl
    · have hcount : ((ranks + (1 <<< (4 * r))) >>> (r * 4)) &&& 0xf
          = nibble (ranks + (1 <<< (4 * r))) r := by
        rw [nibble, Nat.mul_comm r 4]
      have hnr : nibble ranks r ≤ 14 := le_trans (hnib r hr13) (by norm_num)
      have hnib' : NibblesOK (ranks + (1 <<< (4 * r))) := by
        intro j hj
        rw [nibble_add_pow ranks r j hnr]
        by_cases hjr : j = r
        · subst hjr
          rw [hcount] at hc3
          rw [nibble_add_pow ranks j j hnr] at hc3
          simp at hc3 ⊢
          omega
        · simp [hjr]
          exact hnib j hj
      have hkey' : getKeyOfRanks ranks false
          < getKeyOfRanks (ranks + (1 <<< (4 * r))) false := by
        rw [getKeyOfRanks_add ranks r hr13 hnr]
        have := RANKS_pos r hr13
        omega
      exact populate_frame f _ _ _ _ _ _ s _ (by omega) hnib' hkey'
  split_ifs with hb hw hmax
  all_goals try omega
  rw [hloop]
  simp [lookupOrZero]

theorem passStraightFlushes_rankWrites (st : EvalTables) :
    (passStraightFlushes st).rankWrites = st.rankWrites := by
  unfold passStraightFlushes
  rw [show (List.range RANK_COUNT).drop 4 = [4, 5, 6, 7, 8, 9, 10, 11, 12] from by decide]
  simp only [List.foldl_cons, List.foldl_nil]
  simp only [populate_flush_rankWrites]

/-- After the four-of-a-kind pass the rank table maps the quad-deuces key
`4 * RANKS 0 = 32768` to `FOUR_OF_A_KIND + 1 = 32769`: the `r = 0` root is
the first shape visited in the pass, and every later write in the pass has
a strictly larger key. -/
theorem passQuads_lookup (st : EvalTables) :
    lookupOrZero (passQuads st).rankWrites 32768 = 32769 := by
  unfold passQuads
  rw [show List.range RANK_COUNT = [0, 1, 2, 3, 4, 5, 6, 7, 8, 9, 10, 11, 12] from by decide]
  rw [List.foldl_cons]
  rw [List.foldl_cons]
  rw [List.foldl_cons]
  rw [List.foldl_cons]
  rw [List.foldl_cons]
  rw [List.foldl_cons]
  rw [List.foldl_cons]
  rw [List.foldl_cons]
  rw [List.foldl_cons]
  rw [List.foldl_cons]
  rw [List.foldl_cons]
  rw [List.foldl_cons]
  rw [List.foldl_cons]
  rw [List.foldl_nil]
  rw [populate_frame 8 (4 <<< (4 * 12)) 4 RANK_COUNT RANK_COUNT RANK_COUNT RANK_COUNT _ 32768 (by norm_num [RANK_COUNT]) (by decide) (by decide)]
  rw [populate_frame 8 (4 <<< (4 * 11)) 4 RANK_COUNT RANK_COUNT RANK_COUNT RANK_COUNT _ 32768 (by norm_num [RANK_COUNT]) (by decide) (by decide)]
  rw [populate_frame 8 (4 <<< (4 * 10)) 4 RANK_COUNT RANK_COUNT RANK_COUNT RANK_COUNT _ 32768 (by norm_num [RANK_COUNT]) (by decide) (by decide)]
  rw [populate_frame 8 (4 <<< (4 * 9)) 4 RANK_COUNT RANK_COUNT RANK_COUNT RANK_COUNT _ 32768 (by norm_num [RANK_COUNT]) (by decide) (by decide)]
  rw [populate_frame 8 (4 <<< (4 * 8)) 4 RANK_COUNT RANK_COUNT RANK_COUNT RANK_COUNT _ 32768 (by norm_num [RANK_COUNT]) (by decide) (by decide)]
  rw [populate_frame 8 (4 <<< (4 * 7)) 4 RANK_COUNT RANK_COUNT RANK_COUNT RANK_COUNT _ 32768 (by norm_num [RANK_COUNT]) (by decide) (by decide)]
  rw [populate_frame 8 (4 <<< (4 * 6)) 4 RANK_COUNT RANK_COUNT RANK_COUNT RANK_COUNT _ 32768 (by norm_num [RANK_COUNT]) (by decide) (by decide)]
  rw [populate_frame 8 (4 <<< (4 * 5)) 4 RANK_COUNT RANK_COUNT RANK_COUNT RANK_COUNT _ 32768 (by norm_num [RANK_COUNT]) (by decide) (by decide)]
  rw [populate_frame 8 (4 <<< (4 * 4)) 4 RANK_COUNT RANK_COUNT RANK_COUNT RANK_COUNT _ 32768 (by norm_num [RANK_COUNT]) (by decide) (by decide)]
  rw [populate_frame 8 (4 <<< (4 * 3)) 4 RANK_COUNT RANK_COUNT RANK_COUNT RANK_COUNT _ 32768 (by norm_num [RANK_COUNT]) (by decide) (by decide)]
  rw [populate_frame 8 (4 <<< (4 * 2)) 4 RANK_COUNT RANK_COUNT RANK_COUNT RANK_COUNT _ 32768 (by norm_num [RANK_COUNT]) (by decide) (by decide)]
  rw [populate_frame 8 (4 <<< (4 * 1)) 4 RANK_COUNT RANK_COUNT RANK_COUNT RANK_COUNT _ 32768 (by norm_num [RANK_COUNT]) (by decide) (by decide)]
  rw [show (32768 : Nat) = getKeyOfRanks (4 <<< (4 * 0)) false from by decide]
  rw [show (8 : Nat) = 7 + 1 from rfl]
  rw [populate_lookup_head 7 (4 <<< (4 * 0)) 4 RANK_COUNT RANK_COUNT RANK_COUNT RANK_COUNT _ (by norm_num [RANK_COUNT]) (by decide) (by norm_num) (by norm_num) (by norm_num)]
  norm_num [HAND_CATEGORY_OFFSET]

/-- The final rank table maps key 32768 (four deuces) to 32769. -/
theorem rankTableAt_quad_deuces : rankTableAt 32768 = 32769 := by
  unfold rankTableAt staticInit
  rw [passStraightFlushes_rankWrites, passQuads_lookup]

/-- The 2s2h2d2c hand of the claim. -/
def hand2222 : Hand := Hand.empty + CARDS 0 + CARDS 1 + CARDS 2 + CARDS 3

/-- C2: for the four-deuces hand 2s2h2d2c, `evaluate` returns exactly
32769, and the top four bits of that score are 8, the four-of-a-kind
category. -/
theorem evaluate_2222 :
    evaluate hand2222 = 32769 ∧ evaluate hand2222 >>> HAND_CATEGORY_SHIFT = 8 := by
  have hf : hand2222.hasFlush = false := by decide
  have hk : hand2222.getRankKey = 32768 := by decide
  have h1 : evaluate hand2222 = 32769 := by
    rw [evaluate, hf, hk]
    simp only [Bool.false_eq_true, if_false]
    exact rankTableAt_quad_deuces
  exact ⟨h1, by rw [h1]; decide⟩


/-! ## Hands built from distinct cards (claims C4 and C8)

`handFromCards cs` is the hand `Hand::empty() + CARDS[c1] + ... + CARDS[ck]`
for `cs = [c1, ..., ck]`. -/

/-- A hand built by adding the cards of `cs` to the empty hand, left to
right. -/
def handFromCards (cs : List Nat) : Hand :=
  cs.foldl (fun h c => h + CARDS c) Hand.empty

/-- Number of cards of suit `s` in the list (suit of card `c` is `c % 4`). -/
def suitCountL (s : Nat) (cs : List Nat) : Nat :=
  (cs.filter (fun c => c % 4 = s)).length

/-- Sum of the rank constants of the cards. -/
def rankSumL (cs : List Nat) : Nat :=
  (cs.map (fun c => RANKS (c / 4))).sum

/-- Bit position of card `c` in the mask word: suit group `(3 - suit)`,
rank bit inside the group. -/
def maskPos (c : Nat) : Nat := (3 - c % 4) * 16 + c / 4

/-- The suit-counter contribution to the key of a card list. -/
def nibbleSumL (cs : List Nat) : Nat :=
  (3 + suitCountL 0 cs) * 2 ^ 48 + (3 + suitCountL 1 cs) * 2 ^ 52
    + (3 + suitCountL 2 cs) * 2 ^ 56 + (3 + suitCountL 3 cs) * 2 ^ 60

theorem RANKS_le (n : Nat) : RANKS n ≤ 4801683 := by
  unfold RANKS
  split <;> norm_num

theorem handFromCards_append (cs : List Nat) (c : Nat) :
    handFromCards (cs ++ [c]) = handFromCards cs + CARDS c := by
  unfold handFromCards
  rw [List.foldl_append]
  rfl

theorem suitCountL_append (s : Nat) (cs : List Nat) (c : Nat) :
    suitCountL s (cs ++ [c]) = suitCountL s cs + (if c % 4 = s then 1 else 0) := by
  unfold suitCountL
  rw [List.filter_append, List.length_append]
  by_cases h : c % 4 = s <;> simp [h]

theorem suitCountL_le (s : Nat) (cs : List Nat) : suitCountL s cs ≤ cs.length :=
  List.length_filter_le _ _

theorem rankSumL_append (cs : List Nat) (c : Nat) :
    rankSumL (cs ++ [c]) = rankSumL cs + RANKS (c / 4) := by
  unfold rankSumL
  rw [List.map_append, List.sum_append]
  simp

theorem rankSumL_le (cs : List Nat) : rankSumL cs ≤ cs.length * 4801683 := by
  induction cs using List.reverseRecOn with
  | nil => simp [rankSumL]
  | append_singleton cs c ih =>
    rw [rankSumL_append, List.length_append]
    have := RANKS_le (c / 4)
    simp only [List.length_cons, List.length_nil]
    omega

/-- The key formula never reaches `2 ^ 64` for at most 7 cards. -/
theorem key_formula_lt (cs : List Nat) (hlen : cs.length ≤ 7) :
    rankSumL cs + cs.length * 2 ^ 32 + nibbleSumL cs < 2 ^ 64 := by
  have h0 := suitCountL_le 0 cs
  have h1 := suitCountL_le 1 cs
  have h2 := suitCountL_le 2 cs
  have h3 := suitCountL_le 3 cs
  have hr := rankSumL_le cs
  unfold nibbleSumL
  have e48 : (2 : Nat) ^ 48 = 281474976710656 := by norm_num
  have e52 : (2 : Nat) ^ 52 = 4503599627370496 := by norm_num
  have e56 : (2 : Nat) ^ 56 = 72057594037927936 := by norm_num
  have e60 : (2 : Nat) ^ 60 = 1152921504606846976 := by norm_num
  have e32 : (2 : Nat) ^ 32 = 4294967296 := by norm_num
  have e64 : (2 : Nat) ^ 64 = 18446744073709551616 := by norm_num
  have hb0 : (3 + suitCountL 0 cs) * 2 ^ 48 ≤ 10 * 2 ^ 48 :=
    Nat.mul_le_mul_right _ (by omega)
  have hb1 : (3 + suitCountL 1 cs) * 2 ^ 52 ≤ 10 * 2 ^ 52 :=
    Nat.mul_le_mul_right _ (by omega)
  have hb2 : (3 + suitCountL 2 cs) * 2 ^ 56 ≤ 10 * 2 ^ 56 :=
    Nat.mul_le_mul_right _ (by omega)
  have hb3 : (3 + suitCountL 3 cs) * 2 ^ 60 ≤ 10 * 2 ^ 60 :=
    Nat.mul_le_mul_right _ (by omega)
  omega

/-- Key decomposition of a built hand: rank-key sum, card count in bits
32–35, suit counters (initialized at 3) in bits 48–63. -/
theorem handFromCards_key (cs : List Nat) (hlen : cs.length ≤ 7) :
    (handFromCards cs).key = rankSumL cs + cs.length * 2 ^ 32 + nibbleSumL cs := by
  induction cs using List.reverseRecOn with
  | nil =>
    show Hand.empty.key = _
    unfold Hand.empty rankSumL nibbleSumL suitCountL SUITS_SHIFT
    decide
  | append_singleton cs c ih =>
    have hlen' : cs.length ≤ 7 := by
      rw [List.length_append] at hlen
      simp at hlen
      omega
    rw [handFromCards_append]
    show ((handFromCards cs).key + (CARDS c).key) % 2 ^ 64 = _
    rw [ih hlen']
    have hck : (CARDS c).key = 2 ^ (4 * (c % 4) + 48) + 2 ^ 32 + RANKS (c / 4) := by
      show (1 <<< (4 * (c % 4) + SUITS_SHIFT)) + (1 <<< CARD_COUNT_SHIFT) + RANKS (c / 4) = _
      rw [Nat.shiftLeft_eq, Nat.shiftLeft_eq, Nat.one_mul, Nat.one_mul]
      rfl
    rw [hck]
    have hsum : rankSumL cs + cs.length * 2 ^ 32 + nibbleSumL cs
          + (2 ^ (4 * (c % 4) + 48) + 2 ^ 32 + RANKS (c / 4))
        = rankSumL (cs ++ [c]) + (cs ++ [c]).length * 2 ^ 32 + nibbleSumL (cs ++ [c]) := by
      rw [rankSumL_append, List.length_append]
      unfold nibbleSumL
      rw [suitCountL_append, suitCountL_append, suitCountL_append, suitCountL_append]
      have hs4 : c % 4 < 4 := Nat.mod_lt c (by norm_num)
      set s := c % 4 with hs
      interval_cases s <;> simp <;> ring
    rw [hsum]
    exact Nat.mod_eq_of_lt (key_formula_lt (cs ++ [c]) hlen)

/-- Mask decomposition of a built hand: exactly the bits `maskPos c` for
`c` in the list. -/
theorem handFromCards_mask (cs : List Nat) :
    ∀ i, (handFromCards cs).mask.testBit i = true ↔ ∃ c ∈ cs, maskPos c = i := by
  induction cs using List.reverseRecOn with
  | nil =>
    intro i
    show Nat.testBit 0 i = true ↔ _
    simp [Nat.zero_testBit]
  | append_singleton cs c ih =>
    intro i
    rw [handFromCards_append]
    show ((handFromCards cs).mask ||| (CARDS c).mask).testBit i = true ↔ _
    have hcm : (CARDS c).mask = 2 ^ maskPos c := by
      show 1 <<< ((3 - c % 4) * 16 + c / 4) = _
      rw [Nat.shiftLeft_eq, Nat.one_mul]
      rfl
    rw [hcm, Nat.testBit_or, Nat.testBit_two_pow]
    constructor
    · intro h
      rcases Bool.or_eq_true_iff.mp h with h | h
      · obtain ⟨c', hc', hpc⟩ := (ih i).mp h
        exact ⟨c', by simp [hc'], hpc⟩
      · exact ⟨c, by simp, of_decide_eq_true h⟩
    · rintro ⟨c', hc', hpc⟩
      rcases List.mem_append.mp hc' with hmem | hmem
      · have := (ih i).mpr ⟨c', hmem, hpc⟩
        simp [this]
      · have : c' = c := by simpa using hmem
        subst this
        simp [hpc]

theorem maskPos_inj {a b : Nat} (ha : a < 52) (hb : b < 52)
    (h : maskPos a = maskPos b) : a = b := by
  unfold maskPos at h
  omega

/-- With distinct cards the mask has exactly one bit per card. -/
theorem handFromCards_popCount (cs : List Nat) (hnd : cs.Nodup)
    (hlt : ∀ c ∈ cs, c < 52) :
    popCount (handFromCards cs).mask = cs.length := by
  induction cs using List.reverseRecOn with
  | nil => exact popCount_zero
  | append_singleton cs c ih =>
    have hnd' : cs.Nodup := (List.nodup_append.mp hnd).1
    have hnotin : c ∉ cs := fun hmem => (List.nodup_append.mp hnd).2.2 hmem (by simp)
    have hlt' : ∀ x ∈ cs, x < 52 := fun x hx => hlt x (by simp [hx])
    rw [handFromCards_append]
    show popCount ((handFromCards cs).mask ||| (CARDS c).mask) = _
    have hcm : (CARDS c).mask = 2 ^ maskPos c := by
      show 1 <<< ((3 - c % 4) * 16 + c / 4) = _
      rw [Nat.shiftLeft_eq, Nat.one_mul]
      rfl
    have hdisj : 2 ^ maskPos c &&& (handFromCards cs).mask = 0 := by
      rw [and_eq_zero_iff]
      intro i ⟨h1, h2⟩
      rw [Nat.testBit_two_pow] at h1
      have hi : maskPos c = i := by simpa using h1
      obtain ⟨c', hc', hpc⟩ := (handFromCards_mask cs i).mp h2
      have : c' = c := maskPos_inj (hlt' c' hc') (hlt c (by simp)) (by rw [hpc, ← hi])
      exact hnotin (this ▸ hc')
    rw [hcm, Nat.lor_comm, popCount_two_pow_lor hdisj, ih hnd' hlt',
      List.length_append]
    simp

/-- Extraction of the counter word from the key formula. -/
theorem counters_extract (R L n0 n1 n2 n3 : Nat)
    (hR : R < 2 ^ 32) (hL : L ≤ 15) (h0 : n0 ≤ 15) (h1 : n1 ≤ 15)
    (h2 : n2 ≤ 15) (h3 : n3 ≤ 15) :
    ((R + L * 2 ^ 32 + (n0 * 2 ^ 48 + n1 * 2 ^ 52 + n2 * 2 ^ 56 + n3 * 2 ^ 60)) >>> 32)
        &&& 0xFFFFFFFF
      = L + n0 * 2 ^ 16 + n1 * 2 ^ 20 + n2 * 2 ^ 24 + n3 * 2 ^ 28 := by
  rw [Nat.shiftRight_eq_div_pow,
    show (0xFFFFFFFF : Nat) = 2 ^ 32 - 1 from rfl, Nat.and_pow_two_sub_one_eq_mod]
  omega


theorem rankSumL_lt_two_pow_32 (cs : List Nat) (hlen : cs.length ≤ 7) :
    rankSumL cs < 2 ^ 32 := by
  have := rankSumL_le cs
  have h32 : (2 : Nat) ^ 32 = 4294967296 := by norm_num
  have : rankSumL cs ≤ 7 * 4801683 := le_trans this (Nat.mul_le_mul_right _ hlen)
  omega

/-- The counter word of a built hand, in closed form. -/
theorem handFromCards_counters (cs : List Nat) (hlen : cs.length ≤ 7) :
    (handFromCards cs).getCounters
      = cs.length + (3 + suitCountL 0 cs) * 2 ^ 16 + (3 + suitCountL 1 cs) * 2 ^ 20
        + (3 + suitCountL 2 cs) * 2 ^ 24 + (3 + suitCountL 3 cs) * 2 ^ 28 := by
  unfold Hand.getCounters
  rw [handFromCards_key cs hlen]
  have h0 := suitCountL_le 0 cs
  have h1 := suitCountL_le 1 cs
  have h2 := suitCountL_le 2 cs
  have h3 := suitCountL_le 3 cs
  have hc := counters_extract (rankSumL cs) cs.length
    (3 + suitCountL 0 cs) (3 + suitCountL 1 cs) (3 + suitCountL 2 cs) (3 + suitCountL 3 cs)
    (rankSumL_lt_two_pow_32 cs hlen) (by omega) (by omega) (by omega) (by omega) (by omega)
  rw [show rankSumL cs + cs.length * 2 ^ 32 + nibbleSumL cs
      = rankSumL cs + cs.length * 2 ^ 32
        + ((3 + suitCountL 0 cs) * 2 ^ 48 + (3 + suitCountL 1 cs) * 2 ^ 52
          + (3 + suitCountL 2 cs) * 2 ^ 56 + (3 + suitCountL 3 cs) * 2 ^ 60) from by
    unfold nibbleSumL; ring]
  rw [hc]

/-- The card counter of a built hand is the number of cards. -/
theorem handFromCards_count (cs : List Nat) (hlen : cs.length ≤ 7) :
    (handFromCards cs).count = cs.length := by
  unfold Hand.count CARD_COUNT_SHIFT
  rw [handFromCards_counters cs hlen]
  rw [show (32 : Nat) - 32 = 0 from rfl, Nat.shiftRight_zero,
    show (0xf : Nat) = 2 ^ 4 - 1 from rfl, Nat.and_pow_two_sub_one_eq_mod]
  have h0 := suitCountL_le 0 cs
  have h1 := suitCountL_le 1 cs
  have h2 := suitCountL_le 2 cs
  have h3 := suitCountL_le 3 cs
  omega

/-- The suit counters of a built hand count the cards of each suit. -/
theorem handFromCards_suitCount (cs : List Nat) (hlen : cs.length ≤ 7)
    (s : Nat) (hs : s < 4) :
    (handFromCards cs).suitCount s = (suitCountL s cs : Int) := by
  unfold Hand.suitCount SUITS_SHIFT
  rw [handFromCards_counters cs hlen]
  have h0 := suitCountL_le 0 cs
  have h1 := suitCountL_le 1 cs
  have h2 := suitCountL_le 2 cs
  have h3 := suitCountL_le 3 cs
  have key : (cs.length + (3 + suitCountL 0 cs) * 2 ^ 16 + (3 + suitCountL 1 cs) * 2 ^ 20
        + (3 + suitCountL 2 cs) * 2 ^ 24 + (3 + suitCountL 3 cs) * 2 ^ 28)
        >>> (4 * s + (48 - 32)) &&& 0xf = 3 + suitCountL s cs := by
    rw [Nat.shiftRight_eq_div_pow,
      show (0xf : Nat) = 2 ^ 4 - 1 from rfl, Nat.and_pow_two_sub_one_eq_mod]
    interval_cases s <;> omega
  rw [key]
  push_cast
  ring

theorem testBit_flush_mask (i : Nat) :
    FLUSH_CHECK_MASK64.testBit i = true ↔ (i = 51 ∨ i = 55 ∨ i = 59 ∨ i = 63) := by
  have hval : FLUSH_CHECK_MASK64 = 0x8888000000000000 := by decide
  rw [hval]
  by_cases hi : i < 64
  · interval_cases i <;> simp <;> decide
  · have hlt : (0x8888000000000000 : Nat) < 2 ^ i :=
      lt_of_lt_of_le (by norm_num : (0x8888000000000000 : Nat) < 2 ^ 64)
        (Nat.pow_le_pow_right (by norm_num) (by omega))
    rw [Nat.testBit_lt_two_pow hlt]
    simp
    omega

/-- Flush detection of a built hand: some suit has at least 5 cards. -/
theorem handFromCards_hasFlush (cs : List Nat) (hlen : cs.length ≤ 7) :
    (handFromCards cs).hasFlush = true ↔ ∃ s, s < 4 ∧ 5 ≤ suitCountL s cs := by
  have hkey := handFromCards_key cs hlen
  have h0 := suitCountL_le 0 cs
  have h1 := suitCountL_le 1 cs
  have h2 := suitCountL_le 2 cs
  have h3 := suitCountL_le 3 cs
  have hR := rankSumL_lt_two_pow_32 cs hlen
  have hbit : ∀ s, s < 4 →
      ((handFromCards cs).key.testBit (51 + 4 * s) = true ↔ 8 ≤ 3 + suitCountL s cs) := by
    intro s hs
    rw [Nat.testBit_to_div_mod, hkey]
    unfold nibbleSumL
    simp only [decide_eq_true_eq]
    interval_cases s <;> omega
  unfold Hand.hasFlush
  rw [bne_iff_ne]
  constructor
  · intro hne
    have hex : ∃ i, ((handFromCards cs).key &&& FLUSH_CHECK_MASK64).testBit i = true := by
      by_contra hall
      push_neg at hall
      exact hne (Nat.eq_of_testBit_eq (fun i => by
        rw [Nat.zero_testBit]
        exact Bool.eq_false_iff.mpr (fun hcontra => hall i hcontra)))
    obtain ⟨i, hi⟩ := hex
    rw [Nat.testBit_and, Bool.and_eq_true] at hi
    have hiC := (testBit_flush_mask i).mp hi.2
    rcases hiC with rfl | rfl | rfl | rfl
    · exact ⟨0, by norm_num, by have := (hbit 0 (by norm_num)).mp (by simpa using hi.1); omega⟩
    · exact ⟨1, by norm_num, by have := (hbit 1 (by norm_num)).mp (by simpa using hi.1); omega⟩
    · exact ⟨2, by norm_num, by have := (hbit 2 (by norm_num)).mp (by simpa using hi.1); omega⟩
    · exact ⟨3, by norm_num, by have := (hbit 3 (by norm_num)).mp (by simpa using hi.1); omega⟩
  · rintro ⟨s, hs, hsc⟩
    intro heq
    have hb1 : (handFromCards cs).key.testBit (51 + 4 * s) = true :=
      (hbit s hs).mpr (by omega)
    have hb2 : FLUSH_CHECK_MASK64.testBit (51 + 4 * s) = true := by
      apply (testBit_flush_mask _).mpr
      interval_cases s <;> norm_num
    have : ((handFromCards cs).key &&& FLUSH_CHECK_MASK64).testBit (51 + 4 * s) = true := by
      rw [Nat.testBit_and, hb1, hb2]
      rfl
    rw [heq, Nat.zero_testBit] at this
    exact Bool.false_ne_true this

/-- C4: for every hand built by adding at most 7 distinct cards to the
empty hand, the card counter equals the popcount of the mask word, and the
flush flag holds exactly when some suit has at least 5 of the cards
(equivalently, `suit_count(s) ≥ 5`). -/
theorem hand_count_flush_invariants (cs : List Nat) (hnd : cs.Nodup)
    (hlt : ∀ c ∈ cs, c < 52) (hlen : cs.length ≤ 7) :
    (handFromCards cs).count = popCount (handFromCards cs).mask ∧
    ((handFromCards cs).hasFlush = true ↔ ∃ s, s < 4 ∧ 5 ≤ suitCountL s cs) ∧
    ((handFromCards cs).hasFlush = true ↔
      ∃ s, s < 4 ∧ (5 : Int) ≤ (handFromCards cs).suitCount s) := by
  refine ⟨?_, handFromCards_hasFlush cs hlen, ?_⟩
  · rw [handFromCards_count cs hlen, handFromCards_popCount cs hnd hlt]
  · rw [handFromCards_hasFlush cs hlen]
    constructor
    · rintro ⟨s, hs, hsc⟩
      refine ⟨s, hs, ?_⟩
      rw [handFromCards_suitCount cs hlen s hs]
      exact_mod_cast hsc
    · rintro ⟨s, hs, hsc⟩
      refine ⟨s, hs, ?_⟩
      rw [handFromCards_suitCount cs hlen s hs] at hsc
      exact_mod_cast hsc

/-- Witness for C4 at the concrete hand 2s3s4s5s6s (five spades: a flush)
together with a concrete evaluation of its hypotheses. -/
theorem hand_count_flush_invariants_witness :
    ([0, 4, 8, 12, 16] : List Nat).Nodup ∧ (∀ c ∈ ([0, 4, 8, 12, 16] : List Nat), c < 52) ∧
      ([0, 4, 8, 12, 16] : List Nat).length ≤ 7 ∧
      ((handFromCards [0, 4, 8, 12, 16]).count = popCount (handFromCards [0, 4, 8, 12, 16]).mask ∧
      ((handFromCards [0, 4, 8, 12, 16]).hasFlush = true ↔
        ∃ s, s < 4 ∧ 5 ≤ suitCountL s [0, 4, 8, 12, 16]) ∧
      ((handFromCards [0, 4, 8, 12, 16]).hasFlush = true ↔
        ∃ s, s < 4 ∧ (5 : Int) ≤ (handFromCards [0, 4, 8, 12, 16]).suitCount s)) :=
  ⟨by decide, by decide, by decide,
    hand_count_flush_invariants [0, 4, 8, 12, 16] (by decide) (by decide) (by decide)⟩

/-- C8: for every hand built from at most 7 distinct cards on which
`has_flush` is false, `evaluate_without_flush` returns the same score as
`evaluate`. -/
theorem evaluate_without_flush_agrees (cs : List Nat) (hnd : cs.Nodup)
    (hlt : ∀ c ∈ cs, c < 52) (hlen : cs.length ≤ 7)
    (hf : (handFromCards cs).hasFlush = false) :
    evaluateWithoutFlush (handFromCards cs) = evaluate (handFromCards cs) := by
  rw [evaluate, hf]
  simp [evaluateWithoutFlush]

/-- Witness for C8 at the concrete non-flush hand 2s2h2d2c. -/
theorem evaluate_without_flush_agrees_witness :
    ([0, 1, 2, 3] : List Nat).Nodup ∧ (∀ c ∈ ([0, 1, 2, 3] : List Nat), c < 52) ∧
      ([0, 1, 2, 3] : List Nat).length ≤ 7 ∧
      (handFromCards [0, 1, 2, 3]).hasFlush = false ∧
      evaluateWithoutFlush (handFromCards [0, 1, 2, 3]) = evaluate (handFromCards [0, 1, 2, 3]) :=
  ⟨by decide, by decide, by decide, by decide,
    evaluate_without_flush_agrees [0, 1, 2, 3] (by decide) (by decide) (by decide) (by decide)⟩


/-! ## Random-walk combo stepping (`Simulator::sim_random_walk_monte_carlo`,
claim C10)

The Monte-Carlo step picks one combined range, removes its current combo
mask from `used_cards_mask`, and walks the combo list backward cyclically
(`if combo_idx == 0 { combo_idx = size } combo_idx -= 1`) until a combo
disjoint from the remaining used mask is found. -/

/-- One backward-cyclic step of the combo index. -/
def walkStep (size idx : Nat) : Nat := (if idx = 0 then size else idx) - 1

/-- The inner search loop, with an explicit iteration bound: step the
index, stop at the first combo mask disjoint from `used`. -/
def findPrevCombo (masks : List Nat) (used : Nat) : Nat → Nat → Option Nat
  | _, 0 => none
  | idx, fuel + 1 =>
    let idx2 := walkStep masks.length idx
    if masks.getD idx2 0 &&& used = 0 then some idx2
    else findPrevCombo masks used idx2 fuel

/-- OR of a list of masks (`used_cards_mask |= combo.mask` accumulated). -/
def listOr (l : List Nat) : Nat := l.foldl (fun a b => a ||| b) 0

theorem and_lor_eq_zero_iff (x a b : Nat) :
    x &&& (a ||| b) = 0 ↔ x &&& a = 0 ∧ x &&& b = 0 := by
  rw [Nat.land_comm x (a ||| b), lor_and_eq_zero_iff, Nat.land_comm a x, Nat.land_comm b x]

theorem and_foldl_or (x : Nat) :
    ∀ (l : List Nat), (∀ m ∈ l, x &&& m = 0) →
      ∀ a, x &&& a = 0 → x &&& l.foldl (fun a b => a ||| b) a = 0 := by
  intro l
  induction l with
  | nil => intro _ a ha; exact ha
  | cons m t ih =>
    intro h a ha
    rw [List.foldl_cons]
    exact ih (fun m' hm' => h m' (by simp [hm'])) (a ||| m)
      ((and_lor_eq_zero_iff x a m).mpr ⟨ha, h m (by simp)⟩)

theorem and_listOr_eq_zero (x : Nat) (l : List Nat) (h : ∀ m ∈ l, x &&& m = 0) :
    x &&& listOr l = 0 :=
  and_foldl_or x l h 0 (Nat.and_zero x)

/-- Disjoint masks OR like they add: the model of `used_cards_mask -=
combo.mask` undoing `used_cards_mask |= combo.mask`. -/
theorem lor_eq_add_of_disjoint (a : Nat) : ∀ b, a &&& b = 0 → a ||| b = a + b := by
  induction a using Nat.strong_induction_on with
  | _ a ih =>
    intro b hab
    by_cases ha : a = 0
    · subst ha; simp [Nat.zero_or]
    · have hdiv : (a / 2) &&& (b / 2) = 0 := by rw [← land_div_two, hab]
      have ihd := ih (a / 2) (Nat.div_lt_self (Nat.pos_of_ne_zero ha) one_lt_two) (b / 2) hdiv
      have hm := mod_two_lor_disjoint hab
      have hab2 : (a ||| b) = (a ||| b) % 2 + 2 * ((a ||| b) / 2) := by omega
      calc a ||| b = (a ||| b) % 2 + 2 * ((a ||| b) / 2) := hab2
        _ = a % 2 + b % 2 + 2 * (a / 2 ||| b / 2) := by rw [hm, lor_div_two]
        _ = a % 2 + b % 2 + 2 * (a / 2) + 2 * (b / 2) := by rw [ihd]; ring
        _ = a + b := by omega

/-- Cyclic distance walked downward from `idx` until `start` is reached
(`n` when `idx = start`). -/
def cyclicDist (n start idx : Nat) : Nat :=
  if start < idx then idx - start else n + idx - start

theorem findPrevCombo_reaches (masks : List Nat) (used : Nat) (start : Nat)
    (hstart : start < masks.length) (h0 : masks.getD start 0 &&& used = 0) :
    ∀ fuel idx, idx < masks.length → cyclicDist masks.length start idx ≤ fuel →
      ∃ j, findPrevCombo masks used idx fuel = some j
        ∧ j < masks.length ∧ masks.getD j 0 &&& used = 0 := by
  intro fuel
  induction fuel with
  | zero =>
    intro idx hidx hd
    exfalso
    unfold cyclicDist at hd
    split at hd <;> omega
  | succ f ih =>
    intro idx hidx hd
    have hn : 1 ≤ masks.length := by omega
    have hidx2 : walkStep masks.length idx < masks.length := by
      unfold walkStep
      split <;> omega
    show ∃ j, (if masks.getD (walkStep masks.length idx) 0 &&& used = 0
        then some (walkStep masks.length idx)
        else findPrevCombo masks used (walkStep masks.length idx) f) = some j
      ∧ j < masks.length ∧ masks.getD j 0 &&& used = 0
    by_cases hfound : masks.getD (walkStep masks.length idx) 0 &&& used = 0
    · exact ⟨walkStep masks.length idx, by rw [if_pos hfound], hidx2, hfound⟩
    · have hne : walkStep masks.length idx ≠ start := by
        intro heq
        rw [heq] at hfound
        exact hfound h0
      have hd2 : cyclicDist masks.length start (walkStep masks.length idx) ≤ f := by
        unfold cyclicDist walkStep at *
        split at hd <;> split <;> split_ifs at * <;> omega
      obtain ⟨j, hj1, hj2, hj3⟩ := ih (walkStep masks.length idx) hidx2 hd2
      exact ⟨j, by rw [if_neg hfound]; exact hj1, hj2, hj3⟩

/-- C10: in the Monte-Carlo random-walk step, with the selected combos of
all combined ranges pairwise disjoint and disjoint from the board, after
the stepped range's current combo mask (disjoint from the rest of the used
mask) is removed, the backward-cyclic search finds a combo disjoint from
the used mask within at most `size` iterations — in the worst case it
reselects the combo it started from.  The first conjunct records that
subtracting the stepped combo mask from the full used mask leaves exactly
the other ranges' masks plus the board. -/
theorem random_walk_inner_loop_terminates
    (masks : List Nat) (board : Nat) (others : List Nat) (start : Nat)
    (hstart : start < masks.length)
    (hdisj : ∀ m ∈ others, masks.getD start 0 &&& m = 0)
    (hboard : masks.getD start 0 &&& board = 0) :
    ((masks.getD start 0 ||| (board ||| listOr others)) - masks.getD start 0
        = board ||| listOr others)
    ∧ ∃ j, findPrevCombo masks (board ||| listOr others) start masks.length = some j
        ∧ j < masks.length
        ∧ masks.getD j 0 &&& (board ||| listOr others) = 0 := by
  have h0 : masks.getD start 0 &&& (board ||| listOr others) = 0 :=
    (and_lor_eq_zero_iff _ _ _).mpr ⟨hboard, and_listOr_eq_zero _ others hdisj⟩
  constructor
  · rw [lor_eq_add_of_disjoint _ _ h0]
    omega
  · exact findPrevCombo_reaches masks _ start hstart h0 masks.length start hstart
      (by unfold cyclicDist; split <;> omega)

/-- Witness for C10 at a concrete two-combo range: masks `[3, 12]`,
stepped combo 0, empty board, no other ranges. -/
theorem random_walk_inner_loop_terminates_witness :
    (0 < ([3, 12] : List Nat).length)
    ∧ (∀ m ∈ ([] : List Nat), ([3, 12] : List Nat).getD 0 0 &&& m = 0)
    ∧ ([3, 12] : List Nat).getD 0 0 &&& 0 = 0
    ∧ (((([3, 12] : List Nat).getD 0 0 ||| (0 ||| listOr [])) - ([3, 12] : List Nat).getD 0 0
        = 0 ||| listOr [])
      ∧ ∃ j, findPrevCombo [3, 12] (0 ||| listOr []) 0 ([3, 12] : List Nat).length = some j
          ∧ j < ([3, 12] : List Nat).length
          ∧ ([3, 12] : List Nat).getD j 0 &&& (0 ||| listOr []) = 0) :=
  ⟨by decide, by decide, by decide,
    random_walk_inner_loop_terminates [3, 12] 0 [] 0 (by decide) (by decide) (by decide)⟩


/-! ## Hand ranges and the range-string parser (`src/hand_range.rs`)

`Combo(c1, c2, weight)` is a hole-card pair with a weight; `HandRange`
holds the parsed combo list.  The parser walks a lowercased char list with
an appended sentinel space; out-of-range reads return the sentinel (the
source's trailing space guarantees in-bounds access on every path). -/

/-- `Combo` of `hand_range.rs`: two card indices and a weight. -/
structure Combo where
  c1 : Nat
  c2 : Nat
  weight : Nat
  deriving DecidableEq, Repr

/-- `HandRange`: the parsed combos (the parsing scratch `char_vec` is
threaded through the parser functions instead of stored). -/
structure HandRange where
  hands : List Combo
  deriving DecidableEq, Repr

/-- `char_to_rank`. -/
def charToRank (c : Char) : Nat :=
  match c with
  | 'a' => 12
  | 'k' => 11
  | 'q' => 10
  | 'j' => 9
  | 't' => 8
  | '9' => 7
  | '8' => 6
  | '7' => 5
  | '6' => 4
  | '5' => 3
  | '4' => 2
  | '3' => 1
  | '2' => 0
  | _ => 255

/-- `char_to_suit`. -/
def charToSuit (c : Char) : Nat :=
  match c with
  | 's' => 0
  | 'h' => 1
  | 'd' => 2
  | 'c' => 3
  | _ => 255

/-- Indexing into the char list; the source's appended `' '` sentinel
keeps every reachable access in bounds, and the same sentinel is the
default here. -/
def getCh (cs : List Char) (i : Nat) : Char := cs.getD i ' '

/-- `parse_rank`: read one rank char, advance on success. -/
def parseRank (cs : List Char) (i : Nat) : Option (Nat × Nat) :=
  let r := charToRank (getCh cs i)
  if r = 255 then none else some (r, i + 1)

/-- `parse_suit`. -/
def parseSuit (cs : List Char) (i : Nat) : Option (Nat × Nat) :=
  let s := charToSuit (getCh cs i)
  if s = 255 then none else some (s, i + 1)

/-- `parse_char`: match one literal char. -/
def parseChar (cs : List Char) (i : Nat) (c : Char) : Option Nat :=
  if getCh cs i = c then some (i + 1) else none

/-- `char::to_digit(10)`. -/
def charDigit (c : Char) : Option Nat :=
  if c.isDigit then some (c.toNat - 48) else none

/-- The digit-reading loop of `parse_weight`; the running number is a
`u32` in the source, hence the `% 2 ^ 32`. -/
def readDigits (cs : List Char) : Nat → Nat → Nat → Nat × Nat
  | 0, i, number => (i, number)
  | fuel + 1, i, number =>
    match charDigit (getCh cs i) with
    | some d => readDigits cs fuel (i + 1) ((number * 10 + d) % 2 ^ 32)
    | none => (i, number)

/-- `parse_weight`: read digits; numbers above 100 are rejected and the
index backtracks (`none`), otherwise the weight is the number read. -/
def parseWeight (cs : List Char) (i : Nat) : Nat × Option Nat :=
  let p := readDigits cs (cs.length + 1) i 0
  if 100 < p.2 then (i, none) else (p.1, some p.2)

/-- `add_combo`: bounds- and duplicate-checked canonicalizing push. -/
def add_combo (hands : List Combo) (c1 c2 weight : Nat) : List Combo :=
  if 51 < c1 ∨ 51 < c2 then hands
  else if c1 = c2 then hands
  else if c1 >>> 2 < c2 >>> 2 ∨ (c1 >>> 2 = c2 >>> 2 ∧ c1 &&& 3 < c2 &&& 3) then
    hands ++ [⟨c2, c1, weight⟩]
  else hands ++ [⟨c1, c2, weight⟩]

/-- `add_combos`: suited and/or offsuit combos of two ranks. -/
def add_combos (hands : List Combo) (rank1 rank2 : Nat) (suited offsuited : Bool)
    (weight : Nat) : List Combo :=
  let hands := if suited ∧ rank1 ≠ rank2 then
      (List.range 4).foldl
        (fun hands suit => add_combo hands (4 * rank1 + suit) (4 * rank2 + suit) weight)
        hands
    else hands
  if offsuited then
    ((List.range 4).flatMap (fun s1 => ((List.range 4).filter (fun s2 => s1 < s2)).map
        (fun s2 => (s1, s2)))).foldl
      (fun hands p =>
        let hands := add_combo hands (4 * rank1 + p.1) (4 * rank2 + p.2) weight
        if rank1 ≠ rank2 then add_combo hands (4 * rank1 + p.2) (4 * rank2 + p.1) weight
        else hands)
      hands
  else hands

/-- `add_combos_plus`: `XX+` ranges. -/
def add_combos_plus (hands : List Combo) (rank1 rank2 : Nat) (suited offsuited : Bool)
    (weight : Nat) : List Combo :=
  if rank1 = rank2 then
    ((List.range 13).drop rank1).foldl
      (fun hands r => add_combos hands r r suited offsuited weight) hands
  else
    ((List.range (rank1 + 1)).drop rank2).foldl
      (fun hands r => add_combos hands rank1 r suited offsuited weight) hands

/-- `add_all`: the full 1326-combo range (`"random"`). -/
def add_all (hands : List Combo) : List Combo :=
  ((List.range 52).flatMap (fun c1 => (List.range c1).map (fun c2 => (c1, c2)))).foldl
    (fun hands p => add_combo hands p.1 p.2 100) hands

/-- `parse_hand`: one combo group.  `none` models a `false` return (the
index backtracks and the hand list is unchanged). -/
def parseHand (cs : List Char) (i : Nat) (hands : List Combo) :
    Option (List Combo × Nat) :=
  match parseRank cs i with
  | none => none
  | some (r1, i1) =>
    match parseSuit cs i1 with
    | some (s1, i2) =>
      match parseRank cs i2 with
      | none => none
      | some (r2, i3) =>
        match parseSuit cs i3 with
        | none => none
        | some (s2, i4) =>
          let c1 := 4 * r1 + s1
          let c2 := 4 * r2 + s2
          if c1 = c2 then none
          else
            match parseChar cs i4 '@' with
            | some i5 =>
              let p := parseWeight cs i5
              some (add_combo hands c1 c2 (p.2.getD 100), p.1)
            | none => some (add_combo hands c1 c2 100, i4)
    | none =>
      match parseRank cs i1 with
      | none => none
      | some (r2, i3) =>
        let sfo :=
          match parseChar cs i3 'o' with
          | some i4 => (false, true, i4)
          | none =>
            match parseChar cs i3 's' with
            | some i4 => (true, false, i4)
            | none => (true, true, i3)
        match parseChar cs sfo.2.2 '+' with
        | some i5 =>
          match parseChar cs i5 '@' with
          | some i6 =>
            let p := parseWeight cs i6
            some (add_combos_plus hands r1 r2 sfo.1 sfo.2.1 (p.2.getD 100), p.1)
          | none => some (add_combos_plus hands r1 r2 sfo.1 sfo.2.1 100, i5)
        | none =>
          match parseChar cs sfo.2.2 '@' with
          | some i6 =>
            let p := parseWeight cs i6
            some (add_combos hands r1 r2 sfo.1 sfo.2.1 (p.2.getD 100), p.1)
          | none => some (add_combos hands r1 r2 sfo.1 sfo.2.1 100, sfo.2.2)

/-- The `while parse_hand && parse_char(',')` loop of `from_string`.
Each successful iteration consumes at least three characters, so
`cs.length + 1` fuel is never exhausted on a real input. -/
def parseLoop (cs : List Char) : Nat → Nat → List Combo → List Combo
  | 0, _, hands => hands
  | fuel + 1, i, hands =>
    match parseHand cs i hands with
    | none => hands
    | some (hands2, i2) =>
      match parseChar cs i2 ',' with
      | none => hands2
      | some i3 => parseLoop cs fuel i3 hands2

/-- The lexicographic order of `impl Ord for Combo` (first ranks, then
suits). -/
def comboLE (x y : Combo) : Prop :=
  x.c1 >>> 2 < y.c1 >>> 2 ∨ (x.c1 >>> 2 = y.c1 >>> 2 ∧
    (x.c2 >>> 2 < y.c2 >>> 2 ∨ (x.c2 >>> 2 = y.c2 >>> 2 ∧
      (x.c1 &&& 3 < y.c1 &&& 3 ∨ (x.c1 &&& 3 = y.c1 &&& 3 ∧ x.c2 &&& 3 ≤ y.c2 &&& 3)))))

instance : DecidableRel comboLE := fun x y => by
  unfold comboLE
  infer_instance

/-- `Vec::dedup` worker: drop the later elements of each run of
consecutive card-equal combos (the source's `PartialEq` ignores the
weight). -/
def dedupAdjGo (prev : Combo) : List Combo → List Combo
  | [] => []
  | y :: t =>
    if prev.c1 = y.c1 ∧ prev.c2 = y.c2 then dedupAdjGo prev t
    else y :: dedupAdjGo y t

/-- `Vec::dedup`. -/
def dedupAdj : List Combo → List Combo
  | [] => []
  | x :: t => x :: dedupAdjGo x t

/-- `remove_duplicates`: stable sort by the combo order, then dedup of
consecutive card-equal combos.  (`Vec::sort` is a stable sort; any stable
sort computes the same list, here insertion sort.) -/
def remove_duplicates (hands : List Combo) : List Combo :=
  dedupAdj (List.insertionSort comboLE hands)

/-- `HandRange::from_string`: `"random"` expands to all combos, otherwise
the input is lowercased, a sentinel space is appended, and the combo
groups are parsed and deduplicated. -/
def HandRange.from_string (text : String) : HandRange :=
  if text = "random" then { hands := add_all [] }
  else
    let cs := text.toList.map Char.toLower ++ [' ']
    { hands := remove_duplicates (parseLoop cs (cs.length + 1) 0 []) }

/-- `remove_conflicting_combos`: drop combos that intersect the board. -/
def HandRange.remove_conflicting_combos (r : HandRange) (board_mask : Nat) : HandRange :=
  { hands := r.hands.filter
      (fun x => ((1 <<< x.c1) ||| (1 <<< x.c2)) &&& board_mask = 0) }


/-! ### Combo invariants of the parser (claim C7) -/

/-- The canonical-combo predicate: distinct in-range cards, the first of
strictly higher rank, or of equal rank and strictly higher suit. -/
def Pcan (x : Combo) : Prop :=
  x.c1 ≠ x.c2 ∧ x.c1 < 52 ∧ x.c2 < 52 ∧
    (x.c2 >>> 2 < x.c1 >>> 2 ∨ (x.c1 >>> 2 = x.c2 >>> 2 ∧ x.c2 &&& 3 < x.c1 &&& 3))

theorem shiftRight_two_eq (c : Nat) : c >>> 2 = c / 4 := by
  rw [Nat.shiftRight_eq_div_pow]

theorem and_three_eq (c : Nat) : c &&& 3 = c % 4 := by
  rw [show (3 : Nat) = 2 ^ 2 - 1 from rfl, Nat.and_pow_two_sub_one_eq_mod]

theorem add_combo_mem (hands : List Combo) (c1 c2 w : Nat) :
    ∀ x ∈ add_combo hands c1 c2 w, x ∈ hands ∨ (Pcan x ∧ x.weight = w) := by
  intro x hx
  unfold add_combo at hx
  split_ifs at hx with h1 h2 h3
  · exact Or.inl hx
  · exact Or.inl hx
  · rcases List.mem_append.mp hx with hm | hm
    · exact Or.inl hm
    · have hxe : x = ⟨c2, c1, w⟩ := by simpa using hm
      subst hxe
      refine Or.inr ⟨⟨?_, ?_, ?_, ?_⟩, rfl⟩
      · exact fun he => h2 he.symm
      · simp only at *; omega
      · simp only at *; omega
      · simp only
        rcases h3 with h3 | h3
        · exact Or.inl h3
        · exact Or.inr ⟨h3.1.symm, h3.2⟩
  · rcases List.mem_append.mp hx with hm | hm
    · exact Or.inl hm
    · have hxe : x = ⟨c1, c2, w⟩ := by simpa using hm
      subst hxe
      refine Or.inr ⟨⟨h2, ?_, ?_, ?_⟩, rfl⟩
      · simp only at *; omega
      · simp only at *; omega
      · simp only
        rw [shiftRight_two_eq, shiftRight_two_eq, and_three_eq, and_three_eq] at *
        omega

theorem foldl_mem_invariant {α : Type} (step : List Combo → α → List Combo)
    (P : Combo → Prop)
    (hstep : ∀ hands a, ∀ x ∈ step hands a, x ∈ hands ∨ P x) :
    ∀ (l : List α) (hands : List Combo), ∀ x ∈ l.foldl step hands, x ∈ hands ∨ P x := by
  intro l
  induction l with
  | nil => intro hands x hx; exact Or.inl hx
  | cons a t ih =>
    intro hands x hx
    rw [List.foldl_cons] at hx
    rcases ih (step hands a) x hx with hm | hp
    · exact hstep hands a x hm
    · exact Or.inr hp

theorem add_combos_offsuit_step_mem (r1 r2 w : Nat) (hands : List Combo) (p : Nat × Nat) :
    ∀ x ∈ (let hands2 := add_combo hands (4 * r1 + p.1) (4 * r2 + p.2) w
           if r1 ≠ r2 then add_combo hands2 (4 * r1 + p.2) (4 * r2 + p.1) w else hands2),
      x ∈ hands ∨ (Pcan x ∧ x.weight = w) := by
  intro x hx
  simp only at hx
  by_cases hne : r1 ≠ r2
  · rw [if_pos hne] at hx
    rcases add_combo_mem _ _ _ _ x hx with hm | hp
    · exact add_combo_mem _ _ _ _ x hm
    · exact Or.inr hp
  · rw [if_neg hne] at hx
    exact add_combo_mem _ _ _ _ x hx

theorem add_combos_mem (hands : List Combo) (r1 r2 : Nat) (su os : Bool) (w : Nat) :
    ∀ x ∈ add_combos hands r1 r2 su os w, x ∈ hands ∨ (Pcan x ∧ x.weight = w) := by
  intro x hx
  unfold add_combos at hx
  simp only at hx
  have hinner : ∀ y ∈ (if (su = true ∧ r1 ≠ r2) then
        (List.range 4).foldl
          (fun hands suit => add_combo hands (4 * r1 + suit) (4 * r2 + suit) w) hands
      else hands), y ∈ hands ∨ (Pcan y ∧ y.weight = w) := by
    intro y hy
    by_cases hsu : (su = true ∧ r1 ≠ r2)
    · rw [if_pos hsu] at hy
      exact foldl_mem_invariant _ _
        (fun hands s x hx => add_combo_mem hands _ _ w x hx) _ _ y hy
    · rw [if_neg hsu] at hy
      exact Or.inl hy
  by_cases hos : os = true
  · rw [if_pos hos] at hx
    rcases foldl_mem_invariant _ (fun x => Pcan x ∧ x.weight = w)
        (fun hands p x hx => add_combos_offsuit_step_mem r1 r2 w hands p x hx)
        _ _ x hx with hm | hp
    · exact hinner x hm
    · exact Or.inr hp
  · rw [if_neg hos] at hx
    exact hinner x hx

theorem add_combos_plus_mem (hands : List Combo) (r1 r2 : Nat) (su os : Bool) (w : Nat) :
    ∀ x ∈ add_combos_plus hands r1 r2 su os w, x ∈ hands ∨ (Pcan x ∧ x.weight = w) := by
  intro x hx
  unfold add_combos_plus at hx
  split_ifs at hx
  · exact foldl_mem_invariant _ _
      (fun hands r x hx => add_combos_mem hands r r su os w x hx) _ _ x hx
  · exact foldl_mem_invariant _ _
      (fun hands r x hx => add_combos_mem hands r1 r su os w x hx) _ _ x hx

theorem add_all_mem (hands : List Combo) :
    ∀ x ∈ add_all hands, x ∈ hands ∨ (Pcan x ∧ x.weight = 100) :=
  foldl_mem_invariant _ _
    (fun hands p x hx => add_combo_mem hands p.1 p.2 100 x hx) _ hands

theorem parseWeight_le (cs : List Char) (i : Nat) (w : Nat)
    (h : (parseWeight cs i).2 = some w) : w ≤ 100 := by
  unfold parseWeight at h
  simp only [] at h
  split_ifs at h with hgt
  all_goals simp at h
  all_goals omega

theorem getCh_mem_or_space (cs : List Char) (i : Nat) :
    getCh cs i ∈ cs ∨ getCh cs i = ' ' := by
  unfold getCh
  induction cs generalizing i with
  | nil => exact Or.inr rfl
  | cons c t ih =>
    match i with
    | 0 => exact Or.inl (by simp [List.getD])
    | i + 1 =>
      rcases ih i with hm | hsp
      · exact Or.inl (by simp [List.getD] at hm ⊢; exact Or.inr hm)
      · exact Or.inr (by simpa [List.getD] using hsp)

theorem parseChar_at_of_not_mem (cs : List Char) (i : Nat)
    (h : '@' ∉ cs) : parseChar cs i '@' = none := by
  unfold parseChar
  rw [if_neg]
  intro heq
  rcases getCh_mem_or_space cs i with hm | hsp
  · rw [heq] at hm; exact h hm
  · rw [heq] at hsp; exact absurd hsp (by decide)

theorem parseHand_mem (cs : List Char) (i : Nat) (hands hands2 : List Combo) (i2 : Nat)
    (h : parseHand cs i hands = some (hands2, i2)) :
    ∀ x ∈ hands2, x ∈ hands ∨ (Pcan x ∧ x.weight ≤ 100 ∧ ('@' ∉ cs → x.weight = 100)) := by
  intro x hx
  have hwle : ∀ j : Nat, (parseWeight cs j).2.getD 100 ≤ 100 := by
    intro j
    cases hw : (parseWeight cs j).2 with
    | none => simp
    | some w => simpa using parseWeight_le cs j w hw
  unfold parseHand at h
  simp only [] at h
  repeat' split at h
  all_goals try exact (Option.noConfusion h)
  all_goals
    simp only [Option.some.injEq, Prod.mk.injEq] at h
  all_goals
    obtain ⟨hh, _⟩ := h
  all_goals
    rw [← hh] at hx
  all_goals
    first
    | (rcases add_combo_mem _ _ _ _ x hx with hm | hp
       · exact Or.inl hm
       · obtain ⟨hpc, hpw⟩ := hp
         refine Or.inr ⟨hpc, ?_, ?_⟩
         · first
           | (rw [hpw]; exact hwle _)
           | omega
         · intro hnot
           first
           | exact hpw
           | (exfalso
              simp only [parseChar_at_of_not_mem cs _ hnot] at *
              simp_all))
    | (rcases add_combos_mem _ _ _ _ _ _ x hx with hm | hp
       · exact Or.inl hm
       · obtain ⟨hpc, hpw⟩ := hp
         refine Or.inr ⟨hpc, ?_, ?_⟩
         · first
           | (rw [hpw]; exact hwle _)
           | omega
         · intro hnot
           first
           | exact hpw
           | (exfalso
              simp only [parseChar_at_of_not_mem cs _ hnot] at *
              simp_all))
    | (rcases add_combos_plus_mem _ _ _ _ _ _ x hx with hm | hp
       · exact Or.inl hm
       · obtain ⟨hpc, hpw⟩ := hp
         refine Or.inr ⟨hpc, ?_, ?_⟩
         · first
           | (rw [hpw]; exact hwle _)
           | omega
         · intro hnot
           first
           | exact hpw
           | (exfalso
              simp only [parseChar_at_of_not_mem cs _ hnot] at *
              simp_all))

theorem parseLoop_mem (cs : List Char) :
    ∀ (fuel i : Nat) (hands : List Combo), ∀ x ∈ parseLoop cs fuel i hands,
      x ∈ hands ∨ (Pcan x ∧ x.weight ≤ 100 ∧ ('@' ∉ cs → x.weight = 100)) := by
  intro fuel
  induction fuel with
  | zero => intro i hands x hx; exact Or.inl hx
  | succ f ih =>
    intro i hands x hx
    unfold parseLoop at hx
    split at hx
    next => exact Or.inl hx
    next hands2 i2 heq =>
      split at hx
      next => exact parseHand_mem cs i hands hands2 i2 heq x hx
      next i3 heq2 =>
        rcases ih i3 hands2 x hx with hm | hp
        · exact parseHand_mem cs i hands hands2 i2 heq x hm
        · exact Or.inr hp

theorem dedupAdjGo_subset (prev : Combo) :
    ∀ l, ∀ x ∈ dedupAdjGo prev l, x ∈ l := by
  intro l
  induction l generalizing prev with
  | nil => intro x hx; exact absurd hx (by simp [dedupAdjGo])
  | cons y t ih =>
    intro x hx
    unfold dedupAdjGo at hx
    split_ifs at hx with he
    · exact List.mem_cons.mpr (Or.inr (ih prev x hx))
    · rcases List.mem_cons.mp hx with rfl | hm
      · simp
      · exact List.mem_cons.mpr (Or.inr (ih y x hm))

theorem dedupAdj_subset : ∀ l, ∀ x ∈ dedupAdj l, x ∈ l := by
  intro l
  match l with
  | [] => intro x hx; exact hx
  | y :: t =>
    intro x hx
    unfold dedupAdj at hx
    rcases List.mem_cons.mp hx with rfl | hm
    · simp
    · exact List.mem_cons.mpr (Or.inr (dedupAdjGo_subset y t x hm))

theorem remove_duplicates_subset (hands : List Combo) :
    ∀ x ∈ remove_duplicates hands, x ∈ hands := by
  intro x hx
  unfold remove_duplicates at hx
  exact (List.Perm.mem_iff (List.perm_insertionSort comboLE hands)).mp
    (dedupAdj_subset _ x hx)

set_option maxRecDepth 8000 in
/-- C7 (amended): every combo produced by `HandRange::from_string` has two
distinct cards in `0..52` in canonical order (first card of strictly
higher rank, or equal rank and strictly higher suit), and a weight of at
most 100, the weight being exactly the default 100 whenever the input
contains no `@` weight tag.  (The claim's lower bound `1 ≤ weight` fails:
an explicit `@0` tag yields weight 0, as the source doc comment — "weighting
between 0-100" — confirms.) -/
theorem hand_range_combo_invariants (text : String) :
    (∀ combo ∈ (HandRange.from_string text).hands,
      combo.c1 ≠ combo.c2 ∧ combo.c1 < 52 ∧ combo.c2 < 52 ∧
        (combo.c2 >>> 2 < combo.c1 >>> 2 ∨
          (combo.c1 >>> 2 = combo.c2 >>> 2 ∧ combo.c2 &&& 3 < combo.c1 &&& 3)) ∧
        combo.weight ≤ 100) ∧
    ('@' ∉ text.toList.map Char.toLower →
      ∀ combo ∈ (HandRange.from_string text).hands, combo.weight = 100) := by
  unfold HandRange.from_string
  split_ifs with hrand
  · constructor
    · intro combo hc
      rcases add_all_mem [] combo hc with hm | hp
      · exact absurd hm (by simp)
      · exact ⟨hp.1.1, hp.1.2.1, hp.1.2.2.1, hp.1.2.2.2, by omega⟩
    · intro _ combo hc
      rcases add_all_mem [] combo hc with hm | hp
      · exact absurd hm (by simp)
      · exact hp.2
  · constructor
    · intro combo hc
      have hc2 := remove_duplicates_subset _ combo hc
      rcases parseLoop_mem _ _ _ _ combo hc2 with hm | hp
      · exact absurd hm (by simp)
      · exact ⟨hp.1.1, hp.1.2.1, hp.1.2.2.1, hp.1.2.2.2, hp.2.1⟩
    · intro hat combo hc
      have hc2 := remove_duplicates_subset _ combo hc
      rcases parseLoop_mem _ _ _ _ combo hc2 with hm | hp
      · exact absurd hm (by simp)
      · refine hp.2.2 ?_
        intro hmem
        rcases List.mem_append.mp hmem with hm2 | hm2
        · exact hat hm2
        · exact absurd hm2 (by decide)

/-- Witness for C7's amended invariant at the concrete range string
`"22"`, whose first canonical combo is 2h2s at the default weight. -/
theorem hand_range_combo_invariants_witness :
    ((⟨1, 0, 100⟩ : Combo) ∈ (HandRange.from_string "22").hands) ∧
      ('@' ∉ ("22" : String).toList.map Char.toLower) ∧
      ((⟨1, 0, 100⟩ : Combo).c1 ≠ (⟨1, 0, 100⟩ : Combo).c2 ∧
        (⟨1, 0, 100⟩ : Combo).c1 < 52 ∧ (⟨1, 0, 100⟩ : Combo).c2 < 52 ∧
        ((⟨1, 0, 100⟩ : Combo).c2 >>> 2 < (⟨1, 0, 100⟩ : Combo).c1 >>> 2 ∨
          ((⟨1, 0, 100⟩ : Combo).c1 >>> 2 = (⟨1, 0, 100⟩ : Combo).c2 >>> 2 ∧
            (⟨1, 0, 100⟩ : Combo).c2 &&& 3 < (⟨1, 0, 100⟩ : Combo).c1 &&& 3)) ∧
        (⟨1, 0, 100⟩ : Combo).weight ≤ 100) ∧
      (⟨1, 0, 100⟩ : Combo).weight = 100 :=
  ⟨by decide, by decide,
    (hand_range_combo_invariants "22").1 ⟨1, 0, 100⟩ (by decide),
    (hand_range_combo_invariants "22").2 (by decide) ⟨1, 0, 100⟩ (by decide)⟩

/-- Counterexample to C7 as stated: the range string `"aa@0"` produces
combos of weight 0, violating the claimed lower bound `1 ≤ weight`. -/
theorem hand_range_combo_weight_zero :
    ¬ (∀ combo ∈ (HandRange.from_string "aa@0").hands,
        1 ≤ combo.weight ∧ combo.weight ≤ 100) := by
  decide


/-! ## Combined ranges (`src/equity_calculator/combined_range.rs`)

A combined range holds the disjoint Cartesian product of one or more
player ranges.  The fixed-size arrays `[_; MAX_PLAYERS]` are modelled as
total functions with the source's fill values as defaults; only slots
below `player_count` are ever read. -/

/-- `Hand::default()` (the zero hand used to fill unused combo slots; the
`Default` impl is not under `src/` — a derived default zeroes both words,
and the value is never read for live player slots). -/
def handDefault : Hand := { key := 0, mask := 0 }

/-- Max combined range size (`MAX_SIZE`). -/
def MAX_SIZE : Nat := 10000

/-- `Combo` of `combined_range.rs` (one joint hole-card assignment). -/
structure CombinedCombo where
  mask : Nat
  hands : Nat → Hand
  hole_cards : Nat → Nat × Nat × Nat

/-- `Combo::new()`. -/
def CombinedCombo.new : CombinedCombo :=
  { mask := 0, hands := fun _ => handDefault, hole_cards := fun _ => (52, 52, 0) }

structure CombinedRange where
  player_count : Nat
  players : Nat → Nat
  combos : List CombinedCombo
  size : Nat

/-- `CombinedRange::default()`. -/
def CombinedRange.default : CombinedRange :=
  { player_count := 0, players := fun _ => 0, combos := [], size := 0 }

instance : Inhabited CombinedRange := ⟨CombinedRange.default⟩

/-- `CombinedRange::from_range`: a singleton combined range for one
player. -/
def CombinedRange.from_range (range : HandRange) (player_idx : Nat) : CombinedRange :=
  let combos := range.hands.map (fun r =>
    { mask := (1 <<< r.c1) ||| (1 <<< r.c2)
    , hands := fun i => if i = 0 then Hand.fromHoleCards r.c1 r.c2 else handDefault
    , hole_cards := fun i => if i = 0 then (r.c1, r.c2, r.weight) else (52, 52, 0) })
  { player_count := 1
  , players := fun i => if i = 0 then player_idx else 0
  , combos := combos
  , size := combos.length }

/-- Hole-card slots of a joined combo: the first range's slots, then the
second range's slots shifted up by the first's player count (the fill
value of `Combo::new()` elsewhere). -/
def joinHole (apc bpc : Nat) (c1 c2 : CombinedCombo) : Nat → Nat × Nat × Nat := fun i =>
  if i < apc then c1.hole_cards i
  else if i < apc + bpc then c2.hole_cards (i - apc)
  else (52, 52, 0)

/-- The combo built by `CombinedRange::join` from a mask-disjoint pair. -/
def joinCombo (apc bpc : Nat) (c1 c2 : CombinedCombo) : CombinedCombo :=
  { mask := c1.mask ||| c2.mask
  , hole_cards := joinHole apc bpc c1 c2
  , hands := fun i =>
      if i < apc + bpc then
        Hand.fromHoleCards (joinHole apc bpc c1 c2 i).1 (joinHole apc bpc c1 c2 i).2.1
      else handDefault }

/-- `CombinedRange::join`: all mask-disjoint pairings of the combos of two
combined ranges, with the second range's players and hole cards shifted
behind the first's. -/
def CombinedRange.join (a b : CombinedRange) : CombinedRange :=
  let combos := a.combos.flatMap (fun c1 =>
    (b.combos.filter (fun c2 => c1.mask &&& c2.mask == 0)).map
      (joinCombo a.player_count b.player_count c1))
  { player_count := a.player_count + b.player_count
  , players := fun i =>
      if i < a.player_count then a.players i
      else if i < a.player_count + b.player_count then b.players (i - a.player_count)
      else 0
  , combos := combos
  , size := combos.length }

/-- `CombinedRange::estimate_join_size`: count of mask-disjoint combo
pairs. -/
def estimateJoinSize (a b : CombinedRange) : Nat :=
  a.combos.foldl
    (fun size c1 => b.combos.foldl
      (fun size c2 => if c1.mask &&& c2.mask = 0 then size + 1 else size) size)
    0

/-- One comparison of the argmin scan in `from_ranges`: keep the best
`(size, i, j)` triple, replacing it only on a strictly smaller estimate. -/
def bestStep (l : List CombinedRange) (best : Nat × Nat × Nat) (p : Nat × Nat) :
    Nat × Nat × Nat :=
  let s := estimateJoinSize (l.getD p.1 default) (l.getD p.2 default)
  if s < best.1 then (s, p.1, p.2) else best

/-- The argmin scan of `from_ranges`: smallest estimated join over pairs
`(i, j)` with `j < i`, scanning `i` ascending and `j` ascending, strict
improvement only (`u64::MAX` when no pair exists). -/
def findBestPair (l : List CombinedRange) : Nat × Nat × Nat :=
  ((List.range l.length).flatMap (fun i => (List.range i).map (fun j => (i, j)))).foldl
    (bestStep l) (2 ^ 64 - 1, 0, 0)

/-- The greedy join loop of `from_ranges`: replace the best pair by its
join while the estimated size stays below `MAX_SIZE`.  Each join removes
one list entry, so `l.length` fuel realizes the loop bound. -/
def joinLoop : Nat → List CombinedRange → List CombinedRange
  | 0, l => l
  | fuel + 1, l =>
    let best := findBestPair l
    if best.1 < MAX_SIZE then
      joinLoop fuel
        ((l.set best.2.2 ((l.getD best.2.2 default).join (l.getD best.2.1 default))).eraseIdx
          best.2.1)
    else l

/-- `CombinedRange::from_ranges`. -/
def CombinedRange.from_ranges (ranges : List HandRange) : List CombinedRange :=
  joinLoop ranges.length (ranges.enum.map (fun p => CombinedRange.from_range p.2 p.1))

/-! ### Combined-range invariants -/

/-- Bit mask of the two cards of one hole-card slot. -/
def holeMaskOf (hc : Nat × Nat × Nat) : Nat := (1 <<< hc.1) ||| (1 <<< hc.2.1)

/-- Union of the per-player hole-card masks of the first `pc` slots. -/
def unionHoleMasks (pc : Nat) (hc : Nat → Nat × Nat × Nat) : Nat :=
  (List.range pc).foldl (fun m i => m ||| holeMaskOf (hc i)) 0

/-- Per-combo invariant: live slots hold two distinct cards below 52,
their hole-card masks are pairwise disjoint, and the combo mask is their
union. -/
def ComboInv (pc : Nat) (c : CombinedCombo) : Prop :=
  (∀ i, i < pc → (c.hole_cards i).1 ≠ (c.hole_cards i).2.1 ∧
    (c.hole_cards i).1 < 52 ∧ (c.hole_cards i).2.1 < 52) ∧
  (∀ i j, i < pc → j < pc → i ≠ j →
    holeMaskOf (c.hole_cards i) &&& holeMaskOf (c.hole_cards j) = 0) ∧
  c.mask = unionHoleMasks pc c.hole_cards

/-- Per-range invariant: at least one player, `size` is the combo count,
every combo satisfies `ComboInv`, and a range of two or more players (one
produced by at least one join) has fewer than `MAX_SIZE` combos. -/
def CRInv (cr : CombinedRange) : Prop :=
  1 ≤ cr.player_count ∧ cr.size = cr.combos.length ∧
  (∀ c ∈ cr.combos, ComboInv cr.player_count c) ∧
  (2 ≤ cr.player_count → cr.size < MAX_SIZE)

theorem one_shl_eq (n : Nat) : 1 <<< n = 2 ^ n := by
  rw [Nat.shiftLeft_eq, one_mul]

theorem popCount_holeMaskOf (hc : Nat × Nat × Nat) (h : hc.1 ≠ hc.2.1) :
    popCount (holeMaskOf hc) = 2 := by
  unfold holeMaskOf
  rw [one_shl_eq, one_shl_eq, popCount_two_pow_lor (two_pow_and_two_pow_ne h),
    popCount_two_pow]

theorem unionHoleMasks_zero (hc : Nat → Nat × Nat × Nat) : unionHoleMasks 0 hc = 0 := rfl

theorem unionHoleMasks_succ (pc : Nat) (hc : Nat → Nat × Nat × Nat) :
    unionHoleMasks (pc + 1) hc = unionHoleMasks pc hc ||| holeMaskOf (hc pc) := by
  unfold unionHoleMasks
  rw [List.range_succ, List.foldl_append, List.foldl_cons, List.foldl_nil]

theorem unionHoleMasks_congr {pc : Nat} {hc hc' : Nat → Nat × Nat × Nat}
    (h : ∀ i, i < pc → hc i = hc' i) :
    unionHoleMasks pc hc = unionHoleMasks pc hc' := by
  induction pc with
  | zero => rfl
  | succ n ih =>
    rw [unionHoleMasks_succ, unionHoleMasks_succ,
      ih (fun i hi => h i (Nat.lt_succ_of_lt hi)), h n (Nat.lt_succ_self n)]

theorem unionHoleMasks_add (p q : Nat) (hc : Nat → Nat × Nat × Nat) :
    unionHoleMasks (p + q) hc
      = unionHoleMasks p hc ||| unionHoleMasks q (fun i => hc (p + i)) := by
  induction q with
  | zero => rw [unionHoleMasks_zero, Nat.or_zero]; rfl
  | succ n ih =>
    rw [show p + (n + 1) = (p + n) + 1 by omega, unionHoleMasks_succ, ih,
      unionHoleMasks_succ, Nat.lor_assoc]

theorem unionHoleMasks_and_eq_zero (pc : Nat) (hc : Nat → Nat × Nat × Nat) (x : Nat) :
    unionHoleMasks pc hc &&& x = 0 ↔ ∀ i, i < pc → holeMaskOf (hc i) &&& x = 0 := by
  induction pc with
  | zero => simp [unionHoleMasks_zero, Nat.zero_and]
  | succ n ih =>
    rw [unionHoleMasks_succ, lor_and_eq_zero_iff, ih]
    constructor
    · rintro ⟨h1, h2⟩ i hi
      rcases Nat.lt_succ_iff_lt_or_eq.mp hi with hlt | rfl
      · exact h1 i hlt
      · exact h2
    · intro h
      exact ⟨fun i hi => h i (Nat.lt_succ_of_lt hi), h n (Nat.lt_succ_self n)⟩

theorem comboInv_popCount (pc : Nat) (c : CombinedCombo) (h : ComboInv pc c) :
    popCount c.mask = 2 * pc := by
  obtain ⟨hslot, hdisj, hmask⟩ := h
  rw [hmask]
  clear hmask
  induction pc with
  | zero => exact popCount_zero
  | succ n ih =>
    have hd : unionHoleMasks n c.hole_cards &&& holeMaskOf (c.hole_cards n) = 0 :=
      (unionHoleMasks_and_eq_zero n c.hole_cards _).mpr
        (fun i hi => hdisj i n (Nat.lt_succ_of_lt hi) (Nat.lt_succ_self n) (Nat.ne_of_lt hi))
    rw [unionHoleMasks_succ, popCount_lor_disjoint _ _ hd,
      popCount_holeMaskOf _ (hslot n (Nat.lt_succ_self n)).1,
      ih (fun i hi => hslot i (Nat.lt_succ_of_lt hi))
        (fun i j hi hj => hdisj i j (Nat.lt_succ_of_lt hi) (Nat.lt_succ_of_lt hj))]
    omega

/-- A combo of `from_range` satisfies the invariant at one player. -/
theorem from_range_CRInv (range : HandRange) (pidx : Nat)
    (h : ∀ c ∈ range.hands, c.c1 ≠ c.c2 ∧ c.c1 < 52 ∧ c.c2 < 52) :
    CRInv (CombinedRange.from_range range pidx) := by
  have hpc : (CombinedRange.from_range range pidx).player_count = 1 := rfl
  refine ⟨by rw [hpc], rfl, ?_, by rw [hpc]; omega⟩
  rw [hpc]
  intro c hc
  obtain ⟨r, hr, rfl⟩ := List.mem_map.mp hc
  obtain ⟨hne, h1, h2⟩ := h r hr
  refine ⟨?_, ?_, ?_⟩
  · intro i hi
    have : i = 0 := by omega
    subst this
    simpa using ⟨hne, h1, h2⟩
  · intro i j hi hj hne'
    omega
  · show (1 <<< r.c1) ||| (1 <<< r.c2) = unionHoleMasks 1 _
    rw [show (1 : Nat) = 0 + 1 from rfl, unionHoleMasks_add, unionHoleMasks_zero,
      unionHoleMasks_succ, unionHoleMasks_zero]
    simp [holeMaskOf]

/-- A slot mask of a combo is covered by the combo mask: anything disjoint
from the combo mask is disjoint from each slot mask. -/
theorem slot_disjoint_of_mask_disjoint {pc : Nat} {c : CombinedCombo}
    (h : ComboInv pc c) {x : Nat} (hx : c.mask &&& x = 0) {i : Nat} (hi : i < pc) :
    holeMaskOf (c.hole_cards i) &&& x = 0 := by
  have := h.2.2 ▸ hx
  exact (unionHoleMasks_and_eq_zero pc c.hole_cards x).mp this i hi

theorem joinCombo_inv (apc bpc : Nat) (c1 c2 : CombinedCombo)
    (h1 : ComboInv apc c1) (h2 : ComboInv bpc c2)
    (hdisj : c1.mask &&& c2.mask = 0) :
    ComboInv (apc + bpc) (joinCombo apc bpc c1 c2) := by
  have hole_lo : ∀ i, i < apc → joinHole apc bpc c1 c2 i = c1.hole_cards i := by
    intro i hi
    unfold joinHole
    rw [if_pos hi]
  have hole_hi : ∀ i, apc ≤ i → i < apc + bpc →
      joinHole apc bpc c1 c2 i = c2.hole_cards (i - apc) := by
    intro i hle hlt
    unfold joinHole
    rw [if_neg (by omega), if_pos hlt]
  have hcross : ∀ i j, i < apc → j < bpc →
      holeMaskOf (c1.hole_cards i) &&& holeMaskOf (c2.hole_cards j) = 0 := by
    intro i j hi hj
    have hi' : holeMaskOf (c1.hole_cards i) &&& c2.mask = 0 :=
      slot_disjoint_of_mask_disjoint h1 hdisj hi
    have : c2.mask &&& holeMaskOf (c1.hole_cards i) = 0 := by
      rw [Nat.land_comm]; exact hi'
    have := slot_disjoint_of_mask_disjoint h2 this hj
    rw [Nat.land_comm]; exact this
  refine ⟨?_, ?_, ?_⟩
  · intro i hi
    show (joinHole apc bpc c1 c2 i).1 ≠ (joinHole apc bpc c1 c2 i).2.1 ∧
      (joinHole apc bpc c1 c2 i).1 < 52 ∧ (joinHole apc bpc c1 c2 i).2.1 < 52
    by_cases hlo : i < apc
    · rw [hole_lo i hlo]; exact h1.1 i hlo
    · rw [hole_hi i (by omega) hi]; exact h2.1 (i - apc) (by omega)
  · intro i j hi hj hne
    show holeMaskOf (joinHole apc bpc c1 c2 i) &&& holeMaskOf (joinHole apc bpc c1 c2 j) = 0
    by_cases hilo : i < apc <;> by_cases hjlo : j < apc
    · rw [hole_lo i hilo, hole_lo j hjlo]; exact h1.2.1 i j hilo hjlo hne
    · rw [hole_lo i hilo, hole_hi j (by omega) hj]
      exact hcross i (j - apc) hilo (by omega)
    · rw [hole_hi i (by omega) hi, hole_lo j hjlo, Nat.land_comm]
      exact hcross j (i - apc) hjlo (by omega)
    · rw [hole_hi i (by omega) hi, hole_hi j (by omega) hj]
      exact h2.2.1 (i - apc) (j - apc) (by omega) (by omega) (by omega)
  · show c1.mask ||| c2.mask = unionHoleMasks (apc + bpc) (joinHole apc bpc c1 c2)
    rw [unionHoleMasks_add, unionHoleMasks_congr hole_lo, ← h1.2.2,
      show unionHoleMasks bpc (fun i => joinHole apc bpc c1 c2 (apc + i))
          = unionHoleMasks bpc (fun i => c2.hole_cards i) from
        unionHoleMasks_congr (fun i hi => by
          rw [hole_hi (apc + i) (by omega) (by omega), Nat.add_sub_cancel_left apc i]),
      ← h2.2.2]

/-! The estimated join size counts exactly the combos the join produces,
and is symmetric in its two arguments (the source estimates
`ranges[i].estimate_join_size(ranges[j])` but joins
`ranges[j].join(ranges[i])`). -/

theorem estimate_inner (m : Nat) (l2 : List CombinedCombo) : ∀ (s : Nat),
    l2.foldl (fun s c2 => if m &&& c2.mask = 0 then s + 1 else s) s
      = s + (l2.filter (fun c2 => m &&& c2.mask == 0)).length := by
  induction l2 with
  | nil => intro s; simp
  | cons c2 t ih =>
    intro s
    rw [List.foldl_cons, List.filter_cons]
    by_cases h : m &&& c2.mask = 0
    · rw [if_pos h, ih, if_pos (by simpa using h), List.length_cons]
      omega
    · rw [if_neg h, ih, if_neg (by simpa using h)]

theorem estimate_outer (b : List CombinedCombo) : ∀ (l1 : List CombinedCombo) (s : Nat),
    l1.foldl (fun s c1 => b.foldl
        (fun s c2 => if c1.mask &&& c2.mask = 0 then s + 1 else s) s) s
      = s + (l1.map
          (fun c1 => (b.filter (fun c2 => c1.mask &&& c2.mask == 0)).length)).sum := by
  intro l1
  induction l1 with
  | nil => intro s; simp
  | cons c1 t ih =>
    intro s
    rw [List.foldl_cons, estimate_inner, ih, List.map_cons, List.sum_cons]
    omega

theorem estimate_eq_sum (a b : CombinedRange) :
    estimateJoinSize a b
      = (a.combos.map
          (fun c1 => (b.combos.filter (fun c2 => c1.mask &&& c2.mask == 0)).length)).sum := by
  unfold estimateJoinSize
  rw [estimate_outer, Nat.zero_add]

theorem length_flatMap_eq {α β : Type} (f : α → List β) : ∀ (l : List α),
    (l.flatMap f).length = (l.map (fun x => (f x).length)).sum := by
  intro l
  induction l with
  | nil => rfl
  | cons x t ih => rw [List.flatMap_cons, List.length_append, ih, List.map_cons,
      List.sum_cons]

theorem join_combos_length (a b : CombinedRange) :
    (CombinedRange.join a b).combos.length = estimateJoinSize a b := by
  show (a.combos.flatMap _).length = _
  rw [length_flatMap_eq, estimate_eq_sum]
  simp only [List.length_map]

theorem sum_map_add {α : Type} (f g : α → Nat) : ∀ (l : List α),
    (l.map (fun x => f x + g x)).sum = (l.map f).sum + (l.map g).sum := by
  intro l
  induction l with
  | nil => rfl
  | cons x t ih => simp only [List.map_cons, List.sum_cons, ih]; omega

theorem sum_map_ite {α : Type} (p : α → Bool) : ∀ (l : List α),
    (l.map (fun x => if p x = true then 1 else 0)).sum = (l.filter p).length := by
  intro l
  induction l with
  | nil => rfl
  | cons x t ih =>
    rw [List.map_cons, List.sum_cons, List.filter_cons, ih]
    by_cases h : p x = true
    · rw [if_pos h, if_pos h, List.length_cons]; omega
    · rw [if_neg h, if_neg h, Nat.zero_add]

theorem filter_cons_length {α : Type} (p : α → Bool) (y : α) (l : List α) :
    (List.filter p (y :: l)).length = (if p y = true then 1 else 0) + (l.filter p).length := by
  rw [List.filter_cons]
  by_cases h : p y = true
  · rw [if_pos h, if_pos h, List.length_cons]; omega
  · rw [if_neg h, if_neg h, Nat.zero_add]

theorem sum_filter_swap (l1 : List CombinedCombo) : ∀ (l2 : List CombinedCombo),
    (l1.map (fun x => (l2.filter (fun y => x.mask &&& y.mask == 0)).length)).sum
      = (l2.map (fun y => (l1.filter (fun x => y.mask &&& x.mask == 0)).length)).sum := by
  intro l2
  induction l2 with
  | nil => simp
  | cons y t ih =>
    have hpt : (fun x : CombinedCombo =>
          (List.filter (fun y' => x.mask &&& y'.mask == 0) (y :: t)).length)
        = fun x : CombinedCombo => (if (x.mask &&& y.mask == 0) = true then 1 else 0)
            + (t.filter (fun y' => x.mask &&& y'.mask == 0)).length :=
      funext (fun x => filter_cons_length _ y t)
    rw [hpt, sum_map_add, sum_map_ite, ih, List.map_cons, List.sum_cons]
    congr 1
    apply congrArg
    apply List.filter_congr
    intro x _
    rw [Nat.land_comm]

theorem estimateJoinSize_comm (a b : CombinedRange) :
    estimateJoinSize a b = estimateJoinSize b a := by
  rw [estimate_eq_sum, estimate_eq_sum, sum_filter_swap]

theorem join_CRInv (a b : CombinedRange) (ha : CRInv a) (hb : CRInv b)
    (hsize : (CombinedRange.join a b).combos.length < MAX_SIZE) :
    CRInv (CombinedRange.join a b) := by
  refine ⟨by have := ha.1; show 1 ≤ a.player_count + b.player_count; omega, rfl, ?_,
    fun _ => hsize⟩
  intro c hc
  have hc' : c ∈ a.combos.flatMap (fun c1 =>
      (b.combos.filter (fun c2 => c1.mask &&& c2.mask == 0)).map
        (joinCombo a.player_count b.player_count c1)) := hc
  obtain ⟨c1, hc1, hcm⟩ := List.mem_flatMap.mp hc'
  obtain ⟨c2, hc2, rfl⟩ := List.mem_map.mp hcm
  obtain ⟨hc2b, hd⟩ := List.mem_filter.mp hc2
  exact joinCombo_inv a.player_count b.player_count c1 c2
    (ha.2.2.1 c1 hc1) (hb.2.2.1 c2 hc2b) (by simpa using hd)

/-- Validity of the running best triple during the argmin scan. -/
def BestValid (l : List CombinedRange) (best : Nat × Nat × Nat) : Prop :=
  best = (2 ^ 64 - 1, 0, 0) ∨
    (best.2.2 < best.2.1 ∧ best.2.1 < l.length ∧
      best.1 = estimateJoinSize (l.getD best.2.1 default) (l.getD best.2.2 default))

theorem bestStep_valid (l : List CombinedRange) (best : Nat × Nat × Nat)
    (p : Nat × Nat) (hp : p.2 < p.1 ∧ p.1 < l.length) (hb : BestValid l best) :
    BestValid l (bestStep l best p) := by
  unfold bestStep
  by_cases h : estimateJoinSize (l.getD p.1 default) (l.getD p.2 default) < best.1
  · rw [if_pos h]
    exact Or.inr ⟨hp.1, hp.2, rfl⟩
  · rw [if_neg h]
    exact hb

theorem foldl_bestStep_valid (l : List CombinedRange) :
    ∀ (ps : List (Nat × Nat)) (acc : Nat × Nat × Nat),
      (∀ p ∈ ps, p.2 < p.1 ∧ p.1 < l.length) → BestValid l acc →
      BestValid l (ps.foldl (bestStep l) acc) := by
  intro ps
  induction ps with
  | nil => intro acc _ hacc; exact hacc
  | cons p t ih =>
    intro acc hps hacc
    rw [List.foldl_cons]
    exact ih (bestStep l acc p) (fun q hq => hps q (by simp [hq]))
      (bestStep_valid l acc p (hps p (by simp)) hacc)

theorem findBestPair_valid (l : List CombinedRange) : BestValid l (findBestPair l) := by
  unfold findBestPair
  apply foldl_bestStep_valid
  · intro p hp
    obtain ⟨i, hi, hp'⟩ := List.mem_flatMap.mp hp
    obtain ⟨j, hj, rfl⟩ := List.mem_map.mp hp'
    exact ⟨List.mem_range.mp hj, List.mem_range.mp hi⟩
  · exact Or.inl rfl

theorem getD_mem {l : List CombinedRange} {i : Nat} (h : i < l.length) :
    l.getD i default ∈ l := by
  rw [List.getD_eq_getElem l default h]
  exact List.getElem_mem h

theorem joinLoop_inv : ∀ (fuel : Nat) (l : List CombinedRange),
    (∀ cr ∈ l, CRInv cr) → ∀ cr ∈ joinLoop fuel l, CRInv cr := by
  intro fuel
  induction fuel with
  | zero => intro l h; exact h
  | succ n ih =>
    intro l h cr hcr
    rw [joinLoop] at hcr
    by_cases hlt : (findBestPair l).1 < MAX_SIZE
    · rw [if_pos hlt] at hcr
      rcases findBestPair_valid l with hinit | ⟨hji, hilen, hest⟩
      · rw [hinit] at hlt
        exact absurd hlt (by norm_num [MAX_SIZE])
      · refine ih _ ?_ cr hcr
        intro cr' hcr'
        have hset := List.mem_of_mem_eraseIdx hcr'
        rcases List.mem_or_eq_of_mem_set hset with hmem | rfl
        · exact h cr' hmem
        · apply join_CRInv
          · exact h _ (getD_mem (by omega))
          · exact h _ (getD_mem hilen)
          · rw [join_combos_length, estimateJoinSize_comm, ← hest]
            exact hlt
    · rw [if_neg hlt] at hcr
      exact h cr hcr

theorem from_ranges_inv (ranges : List HandRange)
    (h : ∀ r ∈ ranges, ∀ c ∈ r.hands, c.c1 ≠ c.c2 ∧ c.c1 < 52 ∧ c.c2 < 52) :
    ∀ cr ∈ CombinedRange.from_ranges ranges, CRInv cr := by
  apply joinLoop_inv
  intro cr hcr
  obtain ⟨p, hp, rfl⟩ := List.mem_map.mp hcr
  have hsnd : p.2 ∈ ranges := by
    have he := List.enum_map_snd ranges
    rw [← he]
    exact List.mem_map_of_mem Prod.snd hp
  exact from_range_CRInv p.2 p.1 (h p.2 hsnd)

/-- C3: for every list of at most six hand ranges whose combos each hold
two distinct cards below 52, every combined range built by
`CombinedRange::from_ranges` satisfies: in every combo the per-player
hole-card masks are pairwise disjoint, the combo mask is their union, and
its popcount is twice the player count; and any combined range produced
by a join (player count at least two) has fewer than 10 000 combos. -/
theorem combined_range_invariants (ranges : List HandRange)
    (hcards : ∀ r ∈ ranges, ∀ c ∈ r.hands, c.c1 ≠ c.c2 ∧ c.c1 < 52 ∧ c.c2 < 52)
    (hlen : ranges.length ≤ 6) :
    ∀ cr ∈ CombinedRange.from_ranges ranges,
      (∀ c ∈ cr.combos,
        (∀ i j, i < cr.player_count → j < cr.player_count → i ≠ j →
          holeMaskOf (c.hole_cards i) &&& holeMaskOf (c.hole_cards j) = 0) ∧
        c.mask = unionHoleMasks cr.player_count c.hole_cards ∧
        popCount c.mask = 2 * cr.player_count) ∧
      (2 ≤ cr.player_count → cr.size < MAX_SIZE) := by
  intro cr hcr
  have hinv := from_ranges_inv ranges hcards cr hcr
  refine ⟨?_, hinv.2.2.2⟩
  intro c hc
  have hci := hinv.2.2.1 c hc
  exact ⟨hci.2.1, hci.2.2, comboInv_popCount _ c hci⟩

set_option maxRecDepth 8000 in
/-- Witness for C3 at the concrete one-player input `["22"]`. -/
theorem combined_range_invariants_witness :
    (∀ r ∈ [HandRange.from_string "22"], ∀ c ∈ r.hands,
      c.c1 ≠ c.c2 ∧ c.c1 < 52 ∧ c.c2 < 52) ∧
    ([HandRange.from_string "22"] : List HandRange).length ≤ 6 ∧
    ∀ cr ∈ CombinedRange.from_ranges [HandRange.from_string "22"],
      (∀ c ∈ cr.combos,
        (∀ i j, i < cr.player_count → j < cr.player_count → i ≠ j →
          holeMaskOf (c.hole_cards i) &&& holeMaskOf (c.hole_cards j) = 0) ∧
        c.mask = unionHoleMasks cr.player_count c.hole_cards ∧
        popCount c.mask = 2 * cr.player_count) ∧
      (2 ≤ cr.player_count → cr.size < MAX_SIZE) :=
  ⟨by decide, by decide,
    combined_range_invariants [HandRange.from_string "22"] (by decide) (by decide)⟩

/-! ### Equity-calculator entry points (`src/equity_calculator/simulator.rs`) -/

inductive SimulatorError where
  | TooManyPlayers
  | TooFewPlayers
  | TooManyBoardCards
  | ConflictingRanges
  deriving DecidableEq, Repr

def MIN_PLAYERS : Nat := 2
def MAX_PLAYERS : Nat := 6
def BOARD_CARDS : Nat := 5

/-- `exact_equity` up to the spawned simulation: the argument checks, the
pruning of board-conflicting combos, the combined-range construction and
the empty-range check are translated; the enumeration the threads run on
the constructed simulator and the final equity read are abstracted as
`runSim` applied to the simulator's inputs. -/
def exact_equity {α : Type} (runSim : List HandRange → List CombinedRange → Nat → α)
    (hand_ranges : List HandRange) (board_mask : Nat) (n_threads : Nat) :
    Except SimulatorError α :=
  if hand_ranges.length < MIN_PLAYERS then .error .TooFewPlayers
  else if MAX_PLAYERS < hand_ranges.length then .error .TooManyPlayers
  else if BOARD_CARDS < popCount board_mask then .error .TooManyBoardCards
  else
    let pruned := hand_ranges.map (fun h => h.remove_conflicting_combos board_mask)
    let combined_ranges := CombinedRange.from_ranges pruned
    if combined_ranges.any (fun cr => cr.size == 0) then .error .ConflictingRanges
    else .ok (runSim pruned combined_ranges n_threads)

/-- `approx_equity` up to the spawned simulation: the same checks as
`exact_equity`; the per-range shuffle (a pure reordering by the thread
rng, performed after each range's size check) and the Monte Carlo walk
are abstracted into `runSim`, which also receives the
standard-deviation target. -/
def approx_equity {α β : Type}
    (runSim : List HandRange → List CombinedRange → Nat → β → α)
    (hand_ranges : List HandRange) (board_mask : Nat) (n_threads : Nat)
    (stdev_target : β) : Except SimulatorError α :=
  if hand_ranges.length < MIN_PLAYERS then .error .TooFewPlayers
  else if MAX_PLAYERS < hand_ranges.length then .error .TooManyPlayers
  else if BOARD_CARDS < popCount board_mask then .error .TooManyBoardCards
  else
    let pruned := hand_ranges.map (fun h => h.remove_conflicting_combos board_mask)
    let combined_ranges := CombinedRange.from_ranges pruned
    if combined_ranges.any (fun cr => cr.size == 0) then .error .ConflictingRanges
    else .ok (runSim pruned combined_ranges n_threads stdev_target)

theorem exact_equity_eq {α : Type} (runSim : List HandRange → List CombinedRange → Nat → α)
    (ranges : List HandRange) (board : Nat) (n : Nat) :
    exact_equity runSim ranges board n =
      if ranges.length < 2 then .error .TooFewPlayers
      else if 6 < ranges.length then .error .TooManyPlayers
      else if 5 < popCount board then .error .TooManyBoardCards
      else if ∃ cr ∈ CombinedRange.from_ranges
          (ranges.map (fun h : HandRange => h.remove_conflicting_combos board)),
          cr.size = 0 then
        .error .ConflictingRanges
      else .ok (runSim (ranges.map (fun h => h.remove_conflicting_combos board))
        (CombinedRange.from_ranges
          (ranges.map (fun h => h.remove_conflicting_combos board))) n) := by
  unfold exact_equity MIN_PLAYERS MAX_PLAYERS BOARD_CARDS
  simp only [List.any_eq_true, beq_iff_eq]

theorem approx_equity_eq {α β : Type}
    (runSim : List HandRange → List CombinedRange → Nat → β → α)
    (ranges : List HandRange) (board : Nat) (n : Nat) (tgt : β) :
    approx_equity runSim ranges board n tgt =
      if ranges.length < 2 then .error .TooFewPlayers
      else if 6 < ranges.length then .error .TooManyPlayers
      else if 5 < popCount board then .error .TooManyBoardCards
      else if ∃ cr ∈ CombinedRange.from_ranges
          (ranges.map (fun h : HandRange => h.remove_conflicting_combos board)),
          cr.size = 0 then
        .error .ConflictingRanges
      else .ok (runSim (ranges.map (fun h => h.remove_conflicting_combos board))
        (CombinedRange.from_ranges
          (ranges.map (fun h => h.remove_conflicting_combos board))) n tgt) := by
  unfold approx_equity MIN_PLAYERS MAX_PLAYERS BOARD_CARDS
  simp only [List.any_eq_true, beq_iff_eq]

/-- C1: for both `exact_equity` and `approx_equity`, the result is
`Err(TooFewPlayers)` exactly when fewer than two ranges are given,
`Err(TooManyPlayers)` exactly when more than six are given,
`Err(TooManyBoardCards)` exactly when (past those checks) the board mask
holds more than five cards, and `Err(ConflictingRanges)` exactly when
(past those checks) some combined range built from the board-pruned
ranges is empty; otherwise the result is `Ok` of the simulation run on
the pruned ranges and their combined ranges, so no simulation runs on any
error path. -/
theorem equity_error_handling {α β : Type}
    (runSimE : List HandRange → List CombinedRange → Nat → α)
    (runSimA : List HandRange → List CombinedRange → Nat → β → α)
    (ranges : List HandRange) (board : Nat) (n : Nat) (tgt : β) :
    (exact_equity runSimE ranges board n = .error .TooFewPlayers ↔
      ranges.length < 2) ∧
    (exact_equity runSimE ranges board n = .error .TooManyPlayers ↔
      6 < ranges.length) ∧
    (exact_equity runSimE ranges board n = .error .TooManyBoardCards ↔
      (2 ≤ ranges.length ∧ ranges.length ≤ 6 ∧ 5 < popCount board)) ∧
    (exact_equity runSimE ranges board n = .error .ConflictingRanges ↔
      (2 ≤ ranges.length ∧ ranges.length ≤ 6 ∧ popCount board ≤ 5 ∧
        ∃ cr ∈ CombinedRange.from_ranges
          (ranges.map (fun h => h.remove_conflicting_combos board)), cr.size = 0)) ∧
    (exact_equity runSimE ranges board n =
        .ok (runSimE (ranges.map (fun h => h.remove_conflicting_combos board))
          (CombinedRange.from_ranges
            (ranges.map (fun h => h.remove_conflicting_combos board))) n) ↔
      (2 ≤ ranges.length ∧ ranges.length ≤ 6 ∧ popCount board ≤ 5 ∧
        ∀ cr ∈ CombinedRange.from_ranges
          (ranges.map (fun h => h.remove_conflicting_combos board)), cr.size ≠ 0)) ∧
    (approx_equity runSimA ranges board n tgt = .error .TooFewPlayers ↔
      ranges.length < 2) ∧
    (approx_equity runSimA ranges board n tgt = .error .TooManyPlayers ↔
      6 < ranges.length) ∧
    (approx_equity runSimA ranges board n tgt = .error .TooManyBoardCards ↔
      (2 ≤ ranges.length ∧ ranges.length ≤ 6 ∧ 5 < popCount board)) ∧
    (approx_equity runSimA ranges board n tgt = .error .ConflictingRanges ↔
      (2 ≤ ranges.length ∧ ranges.length ≤ 6 ∧ popCount board ≤ 5 ∧
        ∃ cr ∈ CombinedRange.from_ranges
          (ranges.map (fun h => h.remove_conflicting_combos board)), cr.size = 0)) ∧
    (approx_equity runSimA ranges board n tgt =
        .ok (runSimA (ranges.map (fun h => h.remove_conflicting_combos board))
          (CombinedRange.from_ranges
            (ranges.map (fun h => h.remove_conflicting_combos board))) n tgt) ↔
      (2 ≤ ranges.length ∧ ranges.length ≤ 6 ∧ popCount board ≤ 5 ∧
        ∀ cr ∈ CombinedRange.from_ranges
          (ranges.map (fun h => h.remove_conflicting_combos board)), cr.size ≠ 0)) := by
  rw [exact_equity_eq, approx_equity_eq]
  refine ⟨?_, ?_, ?_, ?_, ?_, ?_, ?_, ?_, ?_, ?_⟩ <;>
    split_ifs with h1 h2 h3 h4 <;> simp_all <;> try omega

/-! ### Shared simulation results (`SimulationResults`, `update_results`)

`f64` values are modelled as real numbers; `u64` counters as naturals.
The per-player vectors and the `wins_by_mask` vector are modelled as
total functions from indices. -/

structure SimulationResults where
  wins : Nat → Nat
  ties : Nat → ℝ
  wins_by_mask : Nat → Nat
  eval_count : Nat
  batch_sum : ℝ
  batch_sum2 : ℝ
  batch_count : ℝ
  stdev : ℝ

/-- `SimulationResults::init`. -/
def SimulationResults.init : SimulationResults :=
  { wins := fun _ => 0, ties := fun _ => 0, wins_by_mask := fun _ => 0
  , eval_count := 0, batch_sum := 0, batch_sum2 := 0, batch_count := 0, stdev := 0 }

/-- The Monte Carlo tail of `update_results` (statements after
`results.eval_count += ...` under `!self.calc_exact`): fold one batch
equity into the running sums, recompute the standard-deviation estimate,
and set the stop flag when a non-final merge estimates below target.
Returns the updated results and stop flag. -/
noncomputable def update_results_stats (r : SimulationResults) (stopped : Bool)
    (batch_equity stdev_target : ℝ) (finished : Bool) : SimulationResults × Bool :=
  let sum := r.batch_sum + batch_equity
  let sum2 := r.batch_sum2 + batch_equity * batch_equity
  let count := r.batch_count + 1
  let stdev := Real.sqrt (1e-9 + sum2 - sum * sum / count) / count
  ({ r with batch_sum := sum, batch_sum2 := sum2, batch_count := count, stdev := stdev },
    if finished = false ∧ stdev < stdev_target then true else stopped)

/-- The standard-deviation estimate in the words of the spec:
`sqrt(max(0, sum2/count − (sum/count)²)) / sqrt(count)`.  Stated for
refinement comparison with the formula the code computes. -/
noncomputable def specStdev (sum sum2 count : ℝ) : ℝ :=
  Real.sqrt (max 0 (sum2 / count - (sum / count) ^ 2)) / Real.sqrt count

/-- Away from the `1e-9` regularizer the two formulas agree: for positive
count and nonnegative centered variance the spec's estimate equals
`sqrt(sum2 − sum·sum/count) / count`. -/
theorem specStdev_eq_code_form (sum sum2 c : ℝ) (hc : 0 < c)
    (hv : 0 ≤ sum2 - sum * sum / c) :
    specStdev sum sum2 c = Real.sqrt (sum2 - sum * sum / c) / c := by
  have h1 : sum2 / c - (sum / c) ^ 2 = (sum2 - sum * sum / c) / c := by
    field_simp
    ring
  rw [specStdev, h1, max_eq_right (div_nonneg hv hc.le), Real.sqrt_div hv,
    div_div, Real.mul_self_sqrt hc.le]

/-- C5 amendment: on a Monte Carlo batch merge the code updates the
running sums and count, sets the standard-deviation estimate to
`sqrt(1e-9 + sum2 − sum·sum/count) / count` — the spec's
`sqrt(max(0, sum2/count − (sum/count)²)) / sqrt(count)` with a `1e-9`
regularizer added under the root — and sets the stop flag exactly when
the merge is not the worker's final one and the estimate is below the
target (an already-set flag stays set). -/
theorem mc_stdev_update (r : SimulationResults) (stopped : Bool)
    (e tgt : ℝ) (finished : Bool) :
    (update_results_stats r stopped e tgt finished).1.batch_sum = r.batch_sum + e ∧
    (update_results_stats r stopped e tgt finished).1.batch_sum2
      = r.batch_sum2 + e * e ∧
    (update_results_stats r stopped e tgt finished).1.batch_count
      = r.batch_count + 1 ∧
    (update_results_stats r stopped e tgt finished).1.stdev
      = Real.sqrt (1e-9 + (r.batch_sum2 + e * e)
          - (r.batch_sum + e) * (r.batch_sum + e) / (r.batch_count + 1))
        / (r.batch_count + 1) ∧
    ((update_results_stats r stopped e tgt finished).2 = true ↔
      (stopped = true ∨ (finished = false ∧
        Real.sqrt (1e-9 + (r.batch_sum2 + e * e)
            - (r.batch_sum + e) * (r.batch_sum + e) / (r.batch_count + 1))
          / (r.batch_count + 1) < tgt))) := by
  refine ⟨rfl, rfl, rfl, rfl, ?_⟩
  show (if finished = false ∧
      Real.sqrt (1e-9 + (r.batch_sum2 + e * e)
          - (r.batch_sum + e) * (r.batch_sum + e) / (r.batch_count + 1))
        / (r.batch_count + 1) < tgt then true else stopped) = true ↔ _
  by_cases h : finished = false ∧
      Real.sqrt (1e-9 + (r.batch_sum2 + e * e)
          - (r.batch_sum + e) * (r.batch_sum + e) / (r.batch_count + 1))
        / (r.batch_count + 1) < tgt
  · rw [if_pos h]
    simp [h]
  · rw [if_neg h]
    constructor
    · intro hs
      exact Or.inl hs
    · rintro (hs | hcond)
      · exact hs
      · exact absurd hcond h

/-- C5 counterexample: merging one zero-equity batch into fresh results
yields the estimate `sqrt(1e-9) / 1 > 0`, while the spec's formula gives
`sqrt(max(0, 0/1 − 0²)) / sqrt(1) = 0`; the two disagree. -/
theorem mc_stdev_spec_counterexample :
    ¬ ((update_results_stats SimulationResults.init false 0 0 false).1.stdev
        = specStdev
            (update_results_stats SimulationResults.init false 0 0 false).1.batch_sum
            (update_results_stats SimulationResults.init false 0 0 false).1.batch_sum2
            (update_results_stats SimulationResults.init false 0 0 false).1.batch_count) := by
  intro h
  have hl : (update_results_stats SimulationResults.init false 0 0 false).1.stdev
      = Real.sqrt 1e-9 := by
    show Real.sqrt (1e-9 + (0 + 0 * 0) - (0 + 0) * (0 + 0) / (0 + 1)) / (0 + 1)
      = Real.sqrt 1e-9
    norm_num
  have hr : specStdev
        (update_results_stats SimulationResults.init false 0 0 false).1.batch_sum
        (update_results_stats SimulationResults.init false 0 0 false).1.batch_sum2
        (update_results_stats SimulationResults.init false 0 0 false).1.batch_count
      = 0 := by
    show Real.sqrt (max 0 ((0 + 0 * 0) / (0 + 1) - ((0 + 0) / (0 + 1)) ^ 2))
        / Real.sqrt (0 + 1) = 0
    norm_num
  have hpos : 0 < Real.sqrt 1e-9 := Real.sqrt_pos.mpr (by norm_num)
  rw [hl, hr] at h
  linarith

/-! ### Win/tie accounting of `update_results` -/

/-- `actual_player_mask`: the winner mask `i` over local slots remapped
through the batch's `player_ids`. -/
def remapMask (pids : Nat → Nat) (n i : Nat) : Nat :=
  (List.range n).foldl
    (fun m j => if i &&& (1 <<< j) ≠ 0 then m ||| (1 <<< pids j) else m) 0

/-- The body of the inner `j` loop of `update_results` for winner mask
`i`: if local slot `j` won, credit a win (single winner) or an equal
integer share of a tie (several winners) to global player
`player_ids[j]`. -/
def tallyStep (pids : Nat → Nat) (wm : Nat → Nat) (i : Nat)
    (r : SimulationResults) (j : Nat) : SimulationResults :=
  if i &&& (1 <<< j) ≠ 0 then
    if popCount i = 1 then
      { r with wins := fun p => if p = pids j then r.wins p + wm i else r.wins p }
    else
      { r with ties := fun p =>
          if p = pids j then r.ties p + ((wm i / popCount i : Nat) : ℝ)
          else r.ties p }
  else r

/-- The body of the outer `i` loop of `update_results`: run the inner
loop over all local slots, then credit the batch count for `i` to
`wins_by_mask` at the remapped mask. -/
def stepMask (pids : Nat → Nat) (n : Nat) (wm : Nat → Nat)
    (res : SimulationResults) (i : Nat) : SimulationResults :=
  let r := (List.range n).foldl (tallyStep pids wm i) res
  { r with wins_by_mask := fun m =>
      if m = remapMask pids n i then r.wins_by_mask m + wm i
      else r.wins_by_mask m }

/-- The win/tie accounting of `update_results`: the outer loop over all
`2 ^ n_players` winner masks. -/
def update_results_counts (pids : Nat → Nat) (n : Nat) (wm : Nat → Nat)
    (res : SimulationResults) : SimulationResults :=
  (List.range (2 ^ n)).foldl (stepMask pids n wm) res

theorem tallyStep_wins_frame (pids : Nat → Nat) (wm : Nat → Nat) (i : Nat)
    (r : SimulationResults) (j p : Nat) (hne : pids j ≠ p) :
    (tallyStep pids wm i r j).wins p = r.wins p := by
  unfold tallyStep
  split_ifs <;> first
    | rfl
    | (show (if p = pids j then r.wins p + wm i else r.wins p) = r.wins p
       rw [if_neg (fun h => hne h.symm)])

theorem tallyStep_ties_frame (pids : Nat → Nat) (wm : Nat → Nat) (i : Nat)
    (r : SimulationResults) (j p : Nat) (hne : pids j ≠ p) :
    (tallyStep pids wm i r j).ties p = r.ties p := by
  unfold tallyStep
  split_ifs <;> first
    | rfl
    | (show (if p = pids j then r.ties p + ((wm i / popCount i : Nat) : ℝ)
          else r.ties p) = r.ties p
       rw [if_neg (fun h => hne h.symm)])

theorem tallyStep_wbm (pids : Nat → Nat) (wm : Nat → Nat) (i : Nat)
    (r : SimulationResults) (j : Nat) :
    (tallyStep pids wm i r j).wins_by_mask = r.wins_by_mask := by
  unfold tallyStep
  split_ifs <;> rfl

theorem innerFold_wbm (pids : Nat → Nat) (wm : Nat → Nat) (i : Nat) :
    ∀ (l : List Nat) (r : SimulationResults),
      (l.foldl (tallyStep pids wm i) r).wins_by_mask = r.wins_by_mask := by
  intro l
  induction l with
  | nil => intro r; rfl
  | cons a t ih => intro r; rw [List.foldl_cons, ih, tallyStep_wbm]

theorem innerFold_wins_frame (pids : Nat → Nat) (wm : Nat → Nat) (i : Nat) (p : Nat) :
    ∀ (l : List Nat) (r : SimulationResults), (∀ a ∈ l, pids a ≠ p) →
      (l.foldl (tallyStep pids wm i) r).wins p = r.wins p := by
  intro l
  induction l with
  | nil => intro r _; rfl
  | cons a t ih =>
    intro r h
    rw [List.foldl_cons, ih _ (fun b hb => h b (by simp [hb])),
      tallyStep_wins_frame _ _ _ _ _ _ (h a (by simp))]

theorem innerFold_ties_frame (pids : Nat → Nat) (wm : Nat → Nat) (i : Nat) (p : Nat) :
    ∀ (l : List Nat) (r : SimulationResults), (∀ a ∈ l, pids a ≠ p) →
      (l.foldl (tallyStep pids wm i) r).ties p = r.ties p := by
  intro l
  induction l with
  | nil => intro r _; rfl
  | cons a t ih =>
    intro r h
    rw [List.foldl_cons, ih _ (fun b hb => h b (by simp [hb])),
      tallyStep_ties_frame _ _ _ _ _ _ (h a (by simp))]

theorem innerFold_wins_hit (pids : Nat → Nat) (wm : Nat → Nat) (i j n : Nat)
    (hinj : ∀ a, a < n → ∀ b, b < n → pids a = pids b → a = b) (hj : j < n)
    (hbit : i &&& (1 <<< j) ≠ 0) (hw : popCount i = 1) :
    ∀ (l : List Nat) (r : SimulationResults), l.Nodup → j ∈ l → (∀ a ∈ l, a < n) →
      (l.foldl (tallyStep pids wm i) r).wins (pids j) = r.wins (pids j) + wm i := by
  intro l
  induction l with
  | nil => intro r _ hmem _; exact absurd hmem (by simp)
  | cons a t ih =>
    intro r hnd hmem hbound
    rw [List.foldl_cons]
    by_cases ha : a = j
    · subst ha
      have hjt : a ∉ t := (List.nodup_cons.mp hnd).1
      rw [innerFold_wins_frame pids wm i (pids a) t _
        (fun b hb hpb =>
          hjt (hinj b (hbound b (by simp [hb])) a (hbound a (by simp)) hpb ▸ hb))]
      show (tallyStep pids wm i r a).wins (pids a) = r.wins (pids a) + wm i
      unfold tallyStep
      rw [if_pos hbit, if_pos hw]
      show (if pids a = pids a then r.wins (pids a) + wm i else r.wins (pids a)) = _
      rw [if_pos rfl]
    · have hne : pids a ≠ pids j := fun hp =>
        ha (hinj a (hbound a (by simp)) j hj hp)
      rw [ih (tallyStep pids wm i r a) (List.nodup_cons.mp hnd).2
          (by rcases List.mem_cons.mp hmem with h | h; exact absurd h.symm ha; exact h)
          (fun b hb => hbound b (by simp [hb])),
        tallyStep_wins_frame _ _ _ _ _ _ hne]

theorem innerFold_ties_hit (pids : Nat → Nat) (wm : Nat → Nat) (i j n : Nat)
    (hinj : ∀ a, a < n → ∀ b, b < n → pids a = pids b → a = b) (hj : j < n)
    (hbit : i &&& (1 <<< j) ≠ 0) (hw : popCount i ≠ 1) :
    ∀ (l : List Nat) (r : SimulationResults), l.Nodup → j ∈ l → (∀ a ∈ l, a < n) →
      (l.foldl (tallyStep pids wm i) r).ties (pids j)
        = r.ties (pids j) + ((wm i / popCount i : Nat) : ℝ) := by
  intro l
  induction l with
  | nil => intro r _ hmem _; exact absurd hmem (by simp)
  | cons a t ih =>
    intro r hnd hmem hbound
    rw [List.foldl_cons]
    by_cases ha : a = j
    · subst ha
      have hjt : a ∉ t := (List.nodup_cons.mp hnd).1
      rw [innerFold_ties_frame pids wm i (pids a) t _
        (fun b hb hpb =>
          hjt (hinj b (hbound b (by simp [hb])) a (hbound a (by simp)) hpb ▸ hb))]
      show (tallyStep pids wm i r a).ties (pids a) = _
      unfold tallyStep
      rw [if_pos hbit, if_neg hw]
      show (if pids a = pids a then r.ties (pids a) + ((wm i / popCount i : Nat) : ℝ)
          else r.ties (pids a)) = _
      rw [if_pos rfl]
    · have hne : pids a ≠ pids j := fun hp =>
        ha (hinj a (hbound a (by simp)) j hj hp)
      rw [ih (tallyStep pids wm i r a) (List.nodup_cons.mp hnd).2
          (by rcases List.mem_cons.mp hmem with h | h; exact absurd h.symm ha; exact h)
          (fun b hb => hbound b (by simp [hb])),
        tallyStep_ties_frame _ _ _ _ _ _ hne]

/-- C6: merging one winner mask `i` of a batch with winner-mask counts
`wm` and player-id map `pids` (injective below the player count `n`):
every local slot `j` with bit `j` set in `i` has its global player's
`wins` entry increased by exactly `wm i` when `i` has a single winner,
and its `ties` entry increased by exactly the integer share
`wm i / popcount i` when there are several; `wins_by_mask` at the
remapped mask increases by exactly `wm i`. -/
theorem batch_merge_accounting (pids : Nat → Nat) (n : Nat) (wm : Nat → Nat)
    (res : SimulationResults) (i j : Nat)
    (hinj : ∀ a, a < n → ∀ b, b < n → pids a = pids b → a = b)
    (hj : j < n) (hbit : i &&& (1 <<< j) ≠ 0) :
    (popCount i = 1 →
      (stepMask pids n wm res i).wins (pids j) = res.wins (pids j) + wm i) ∧
    (1 < popCount i →
      (stepMask pids n wm res i).ties (pids j)
        = res.ties (pids j) + ((wm i / popCount i : Nat) : ℝ)) ∧
    (stepMask pids n wm res i).wins_by_mask (remapMask pids n i)
      = res.wins_by_mask (remapMask pids n i) + wm i := by
  refine ⟨?_, ?_, ?_⟩
  · intro hw
    show ((List.range n).foldl (tallyStep pids wm i) res).wins (pids j) = _
    exact innerFold_wins_hit pids wm i j n hinj hj hbit hw (List.range n) res
      (List.nodup_range n) (List.mem_range.mpr hj) (fun a ha => List.mem_range.mp ha)
  · intro hw
    show ((List.range n).foldl (tallyStep pids wm i) res).ties (pids j) = _
    exact innerFold_ties_hit pids wm i j n hinj hj hbit (by omega) (List.range n) res
      (List.nodup_range n) (List.mem_range.mpr hj) (fun a ha => List.mem_range.mp ha)
  · show (if remapMask pids n i = remapMask pids n i then
        ((List.range n).foldl (tallyStep pids wm i) res).wins_by_mask (remapMask pids n i)
          + wm i
      else ((List.range n).foldl (tallyStep pids wm i) res).wins_by_mask
        (remapMask pids n i)) = _
    rw [if_pos rfl, innerFold_wbm]

/-- Witness for C6 at a concrete tied mask: two players, identity map,
mask `3` (both slots win), slot `0`. -/
theorem batch_merge_accounting_witness :
    (∀ a, a < 2 → ∀ b, b < 2 → (fun p => p) a = (fun p => p) b → a = b) ∧
    (0 : Nat) < 2 ∧ (3 : Nat) &&& (1 <<< 0) ≠ 0 ∧
    ((popCount 3 = 1 →
      (stepMask (fun p => p) 2 (fun _ => 6) SimulationResults.init 3).wins ((fun p => p) 0)
        = SimulationResults.init.wins ((fun p => p) 0) + 6) ∧
    (1 < popCount 3 →
      (stepMask (fun p => p) 2 (fun _ => 6) SimulationResults.init 3).ties ((fun p => p) 0)
        = SimulationResults.init.ties ((fun p => p) 0) + ((6 / popCount 3 : Nat) : ℝ)) ∧
    (stepMask (fun p => p) 2 (fun _ => 6) SimulationResults.init 3).wins_by_mask
        (remapMask (fun p => p) 2 3)
      = SimulationResults.init.wins_by_mask (remapMask (fun p => p) 2 3) + 6) :=
  ⟨by decide, by decide, by decide,
    batch_merge_accounting (fun p => p) 2 (fun _ => 6) SimulationResults.init 3 0
      (by decide) (by decide) (by decide)⟩

/-- C9: Hand addition is commutative and associative: key words add
modulo `2 ^ 64`, mask words OR, and both operations commute and
associate. -/
theorem hand_add_comm_assoc (a b c : Hand) :
    a + b = b + a ∧ (a + b) + c = a + (b + c) := by
  cases a with | mk ka ma =>
  cases b with | mk kb mb =>
  cases c with | mk kc mc =>
  constructor
  · show Hand.mk ((ka + kb) % 2 ^ 64) (ma ||| mb) = Hand.mk ((kb + ka) % 2 ^ 64) (mb ||| ma)
    rw [Nat.add_comm, Nat.lor_comm]
  · show Hand.mk (((ka + kb) % 2 ^ 64 + kc) % 2 ^ 64) ((ma ||| mb) ||| mc)
        = Hand.mk ((ka + (kb + kc) % 2 ^ 64) % 2 ^ 64) (ma ||| (mb ||| mc))
    rw [Nat.mod_add_mod, Nat.add_mod_mod, Nat.add_assoc, Nat.lor_assoc]

end RustPoker
